import Mathlib

/-!
# gophernet: wire protocol, peer set and connection handler

A shallow embedding of `protocol.go`, `peers.go` and `listener.go`.

Conventions of the embedding

* A Go `byte` is a `Nat`, an `int8`/`int32`/`int` is an `Int`; conversions between
  them (`byte(x)`, `uint32(x)`) are written with an explicit `%`.
* A fixed-size array `[n]byte` is a list together with the proof that its length is `n`.
* A Go panic is the `error` side of `Except String`, the string being the runtime's
  message.
* `time.Time` is an `Int` instant, `Before` is `<`.
* `log.Printf` calls have no effect on the state and are left out.
-/

namespace Gophernet

/-! ## protocol.go -/

/-- The Go constant `MagicByte = 'g'`. -/
def MagicByte : Nat := 103

/-- A Go array `[n]byte`. -/
abbrev Bytes (n : Nat) := { l : List Nat // l.length = n }

/-- The key set of a `map[int8]func([]byte) (interface{}, error)`: the decoder functions
themselves are never called in this package, only membership of a key is tested. -/
abbrev DecoderRegistry := List Int

/-- The package variable `decoders`: declared, never assigned, hence the nil map. -/
def decoders : DecoderRegistry := []

/-- The struct `P256Sig`. -/
structure P256Sig where
  R : Bytes 32
  S : Bytes 32
deriving DecidableEq

/-- The struct `Header`; `Sig` is the embedded `P256Sig`. -/
structure Header where
  Magic : Nat
  Version : Int
  Hops : Int
  Sig : P256Sig
  Sender : Bytes 16
  Encoding : Int
  Length : Int
deriving DecidableEq

/-- The errors built by `fmt.Errorf` in `Header.Valid`, each with the value it prints. -/
inductive HeaderError where
  | invalidMagic (magic : Nat)
  | invalidVersion (version : Int)
  | invalidEncoding (encoding : Int)
  | nonPositiveLength (length : Int)
deriving DecidableEq, Repr

/-- The method `Header.Ping`. -/
def Header.Ping (h : Header) : Bool :=
  h.Magic == MagicByte && h.Version == 0 && h.Hops == 0

/-- The method `Header.Valid`, with the value of the package variable `decoders` as
first argument: four independent checks, each appending one error. -/
def Header.Valid (reg : DecoderRegistry) (h : Header) : List HeaderError :=
  let errs : List HeaderError := []
  let errs := if h.Magic ≠ MagicByte then errs ++ [HeaderError.invalidMagic h.Magic] else errs
  let errs := if h.Version ≠ 1 then errs ++ [HeaderError.invalidVersion h.Version] else errs
  let errs := if ¬ reg.contains h.Encoding then
    errs ++ [HeaderError.invalidEncoding h.Encoding] else errs
  let errs := if h.Length < 1 then errs ++ [HeaderError.nonPositiveLength h.Length] else errs
  errs

/-- The struct `Message`. -/
structure Message where
  RawHeader : Header
  RawBody : List Nat
deriving DecidableEq

/-- Go's `make([]byte, n)`: panics on a negative length, else `n` zero bytes. -/
def makeBytes (n : Int) : Except String (List Nat) :=
  if n < 0 then .error "makeslice: len out of range" else .ok (List.replicate n.toNat 0)

/-- The function `PartialMessage`. -/
def PartialMessage (h : Header) : Except String Message := do
  let body ← makeBytes h.Length
  return { RawHeader := h, RawBody := body }

/-- The assignment `b[i] = v` with its bounds check. -/
def setIndex (b : List Nat) (i : Nat) (v : Nat) : Except String (List Nat) :=
  if i < b.length then .ok (b.set i v) else .error "index out of range"

/-- The loop `for i, v := range src { b[off+i] = v }`. -/
def writeAt (b : List Nat) (off : Nat) : List Nat → Except String (List Nat)
  | [] => .ok b
  | v :: rest => do
    let b ← setIndex b off v
    writeAt b (off + 1) rest

/-- The call `binary.BigEndian.PutUint32(b[off:], v)`: the slice expression panics when
`off` exceeds the length, `PutUint32` when fewer than 4 bytes remain. -/
def putUint32 (b : List Nat) (off : Nat) (v : Nat) : Except String (List Nat) :=
  if b.length < off then .error "slice bounds out of range"
  else if b.length - off < 4 then .error "index out of range"
  else .ok (b.take off ++
    [v / 2 ^ 24 % 256, v / 2 ^ 16 % 256, v / 2 ^ 8 % 256, v % 256] ++ b.drop (off + 4))

/-- The call `copy(b[off:], src)`: copies `min (len b - off) (len src)` bytes. -/
def copyAt (b : List Nat) (off : Nat) (src : List Nat) : Except String (List Nat) :=
  if b.length < off then .error "slice bounds out of range"
  else
    let k := min (b.length - off) src.length
    .ok (b.take off ++ src.take k ++ b.drop (off + k))

/-- The buffer `signedPart` that `Message.Verify` builds and hashes (lines 87-93). -/
def Message.signedPart (m : Message) : Except String (List Nat) := do
  let signedPart ← makeBytes (((16 : Nat) : Int) + 1 + 4 + m.RawHeader.Length)
  let signedPart ← writeAt signedPart 0 m.RawHeader.Sender.val
  let signedPart ← setIndex signedPart 16 (m.RawHeader.Encoding % 256).toNat
  let signedPart ← putUint32 signedPart 17 (m.RawHeader.Length % 2 ^ 32).toNat
  copyAt signedPart 21 m.RawBody

/-- The method `big.Int.SetBytes`: the big-endian value of a byte string. -/
def bigFromBytes (b : List Nat) : Nat :=
  b.foldl (fun acc v => acc * 256 + v) 0

/-- The method `P256Sig.Get`: both arrays are copied into fresh 32-byte slices and read
as big-endian integers. -/
def P256Sig.Get (p : P256Sig) : Except String (Nat × Nat) := do
  let r ← makeBytes 32
  let r ← writeAt r 0 p.R.val
  let s ← makeBytes 32
  let s ← writeAt s 0 p.S.val
  return (bigFromBytes r, bigFromBytes s)

/-- The struct `ecdsa.PublicKey` (the curve is always P-256 here). -/
structure PublicKey where
  X : Nat
  Y : Nat
deriving DecidableEq, Repr

/-- The two standard-library functions `Message.Verify` calls: `sha1.Sum` and
`ecdsa.Verify`. -/
structure Crypto where
  sha1Sum : List Nat → Bytes 20
  ecdsaVerify : PublicKey → List Nat → Nat → Nat → Bool

/-- The method `Message.Verify`. -/
def Message.Verify (cr : Crypto) (m : Message) (pubkey : PublicKey) : Except String Bool := do
  let signedPart ← m.signedPart
  let rawHash := cr.sha1Sum signedPart
  let hash ← makeBytes 20
  let hash ← writeAt hash 0 rawHash.val
  let (r, s) ← m.RawHeader.Sig.Get
  return cr.ecdsaVerify pubkey hash r s

/-! ## peers.go -/

/-- A `net.Conn`: `id` tells connections apart, `remoteAddr` is what
`c.RemoteAddr().String()` returns. -/
structure Conn where
  id : Nat
  remoteAddr : String
deriving DecidableEq, Repr

/-- A `chan *Message`: the queued messages and whether `close` has been called on it. -/
structure Chan where
  queue : List Message
  closed : Bool
deriving DecidableEq

/-- The struct `Peer` (the mutex `closeLock` has no sequential content). -/
structure Peer where
  Conn : Conn
  LastRecv : Int
  writeChan : Chan
  closed : Bool
deriving DecidableEq

/-- A `*Peer`: the index of the object in the heap. -/
abbrev PeerRef := Nat

/-- A `map[string]*Peer` as a list of entries with distinct keys. -/
abbrev PeerMap := List (String × PeerRef)

/-- The order in which one `range` over a map visits its entries: Go leaves it
unspecified, so it is an input of every operation that ranges; it can be any
rearrangement of the entries. -/
abbrev RangeOrder := { f : PeerMap → PeerMap // ∀ m, (f m).Perm m }

/-- The Go assignment `m[k] = v`. -/
def mapSet : PeerMap → String → PeerRef → PeerMap
  | [], k, v => [(k, v)]
  | (k1, v1) :: rest, k, v =>
    if k1 = k then (k, v) :: rest else (k1, v1) :: mapSet rest k v

/-- The Go builtin `delete(m, k)`. -/
def mapDelete : PeerMap → String → PeerMap
  | [], _ => []
  | (k1, v1) :: rest, k =>
    if k1 = k then mapDelete rest k else (k1, v1) :: mapDelete rest k

/-- The struct `ecdsa.PrivateKey`. -/
structure PrivateKey where
  pub : PublicKey
  D : Nat
deriving DecidableEq, Repr

/-- The struct `Node` (without its two mutexes); `wg` is the counter of the
`sync.WaitGroup`; a nil `*ecdsa.PublicKey` in `identities` is `none`. -/
structure Node where
  max : Int
  peers : PeerMap
  wg : Int
  ID : Bytes 16
  key : PrivateKey
  identities : List (String × Option PublicKey)
deriving DecidableEq

/-- Everything the operations of a node read and write: the `Peer` objects behind the
`*Peer` pointers, the connections that have been closed, and the node. -/
structure World where
  heap : List Peer
  closedConns : List Nat
  node : Node
deriving DecidableEq

/-- The errors returned (not panics) by the modelled calls. -/
inductive Errno where
  | EINVAL
  | useOfClosedConn
deriving DecidableEq, Repr

/-- The connections closed once `c` is closed too. -/
def closeLog (closedConns : List Nat) (c : Conn) : List Nat :=
  if c.id ∈ closedConns then closedConns else closedConns ++ [c.id]

/-- The method `Close` of a `net.Conn`: the first call closes the connection, any later
call returns an error. -/
def Conn.Close (w : World) (c : Conn) : World × Option Errno :=
  if c.id ∈ w.closedConns then (w, some Errno.useOfClosedConn)
  else ({ w with closedConns := w.closedConns ++ [c.id] }, none)

/-- The function `newPeer` at clock reading `now` (the writer goroutine it starts is not
part of the sequential model). -/
def newPeer (c : Conn) (now : Int) : Peer :=
  { Conn := c, LastRecv := now, writeChan := { queue := [], closed := false }, closed := false }

/-- The method `Peer.Key`. -/
def Peer.Key (p : Peer) : String := p.Conn.remoteAddr

/-- The method `Peer.Close` on the peer behind `p`: the builtin `close` panics on a
channel that is already closed; the field `closed` is read and never written. -/
def Peer.Close (w : World) (p : PeerRef) : Except String (World × Option Errno) :=
  match w.heap[p]? with
  | none => .error "nil pointer dereference"
  | some pp =>
    if pp.closed then .ok (w, some Errno.EINVAL)
    else if pp.writeChan.closed then .error "close of closed channel"
    else
      let pp1 : Peer := { pp with writeChan := { pp.writeChan with closed := true } }
      .ok (Conn.Close { w with heap := w.heap.set p pp1 } pp.Conn)

/-- The method `Add` of `sync.WaitGroup` on the counter. -/
def WaitGroup.Add (counter : Int) (delta : Int) : Except String Int :=
  if counter + delta < 0 then .error "sync: negative WaitGroup counter"
  else .ok (counter + delta)

/-- The function `NewNode`; `ID` is the already parsed `uuid.Parse(id)`. -/
def NewNode (ID : Bytes 16) (key : PrivateKey) (maxConns : Int)
    (identities : List (String × Option PublicKey)) : Except String Node :=
  if maxConns < 1 then .error "Node must have a maximum number of peers > 0"
  else .ok { ID := ID, key := key, max := maxConns, peers := [], identities := identities,
             wg := 0 }

/-- The scan of `AddPeer` (lines 117-122) over the entries in visiting order, `oldest`
being the loop variable. -/
def scanOldest (heap : List Peer) : PeerMap → Option PeerRef → Except String (Option PeerRef)
  | [], oldest => .ok oldest
  | (_, v) :: rest, none => scanOldest heap rest (some v)
  | (_, v) :: rest, some o =>
    match heap[v]?, heap[o]? with
    | some pv, some po =>
      if pv.LastRecv < po.LastRecv then scanOldest heap rest (some v)
      else scanOldest heap rest (some o)
    | _, _ => .error "nil pointer dereference"

/-- The method `Node.AddPeer`, called at clock reading `now`, its `range` visiting the map
in the order `visit`. Returns the new world and the new `*Peer`. -/
def Node.AddPeer (visit : RangeOrder) (w : World) (c : Conn) (now : Int) :
    Except String (World × PeerRef) :=
  let p : PeerRef := w.heap.length
  let w : World := { w with heap := w.heap ++ [newPeer c now] }
  let key := (newPeer c now).Key
  match w.node.peers.lookup key with
  | some v =>
    match w.heap[v]? with
    | none => .error "nil pointer dereference"
    | some pv =>
      let w := (Conn.Close w pv.Conn).1
      let peers := mapSet w.node.peers key p
      .ok ({ w with node := { w.node with peers := mapSet peers key p } }, p)
  | none =>
    if (w.node.peers.length : Int) = w.node.max then
      match scanOldest w.heap (visit.val w.node.peers) none with
      | .error e => .error e
      | .ok none => .error "nil pointer dereference"
      | .ok (some o) =>
        match w.heap[o]? with
        | none => .error "nil pointer dereference"
        | some po =>
          let w := (Conn.Close w po.Conn).1
          let peers := mapDelete w.node.peers po.Key
          .ok ({ w with node := { w.node with peers := mapSet peers key p } }, p)
    else
      match WaitGroup.Add w.node.wg 1 with
      | .error e => .error e
      | .ok wg =>
        .ok ({ w with node := { w.node with wg := wg, peers := mapSet w.node.peers key p } }, p)

/-- The method `Node.GetKey`. -/
def Node.GetKey (n : Node) (id : String) : Option PublicKey :=
  match n.identities.lookup id with
  | some v => v
  | none => none

/-- The method `Node.DropPeer`. -/
def Node.DropPeer (w : World) (p : PeerRef) : Except String World :=
  match w.heap[p]? with
  | none => .error "nil pointer dereference"
  | some pp =>
    let peers := mapDelete w.node.peers pp.Key
    match WaitGroup.Add w.node.wg (-1) with
    | .error e => .error e
    | .ok wg => .ok { w with node := { w.node with peers := peers, wg := wg } }

/-- One call on the node: the two methods that change the peer map. -/
inductive Call where
  | AddPeer (c : Conn) (now : Int) (visit : RangeOrder)
  | DropPeer (p : PeerRef)

/-- Performs one call. -/
def Call.apply (w : World) : Call → Except String World
  | .AddPeer c now visit => (Node.AddPeer visit w c now).map Prod.fst
  | .DropPeer p => Node.DropPeer w p

/-- Performs a sequence of calls, stopping at the first panic. -/
def runCalls (w : World) : List Call → Except String World
  | [] => .ok w
  | c :: rest =>
    match c.apply w with
    | .error e => .error e
    | .ok w1 => runCalls w1 rest

/-- The world right after `NewNode` returned `n`: no peer allocated, nothing closed. -/
def World.init (n : Node) : World :=
  { heap := [], closedConns := [], node := n }

/-! ## listener.go -/

/-- The two kinds of error `binary.Read` can return to `Handle`: a `*net.OpError` whose
`Timeout()` is true, or anything else. -/
inductive ReadErr where
  | timeout
  | other
deriving DecidableEq, Repr

/-- What the environment answers during one pass of the loop of `Handle`: whether the
stop channel is closed at the poll, whether `SetReadDeadline` fails, what `binary.Read`
returns, the clock at line 103, whether the second `SetReadDeadline` fails, and the bytes
the connection yields to `io.ReadFull` before it ends, fails or times out. An answer to a
question that the pass never asks is ignored. -/
structure Iter where
  stop : Bool
  deadlineErr : Bool
  hdr : Except ReadErr Header
  now : Int
  bodyDeadlineErr : Bool
  avail : List Nat

/-- What `Handle` does, in order: the calls and channel operations of its body. -/
inductive Event where
  | pollStop
  | setHeaderDeadline
  | readHeader
  | setLastRecv (t : Int)
  | ping
  | valid
  | partialMessage
  | setBodyDeadline
  | readBody (n : Nat)
  | getKey (id : String)
  | verify (key : PublicKey)
  | send (msg : Message)
  | close
  | drop
deriving DecidableEq

/-- How one pass of the loop ends: `continue` (or falling off the end of the body),
`return`, or a panic. -/
inductive Flow where
  | next
  | ret
  | panic (msg : String)
deriving DecidableEq, Repr

/-- The call `io.ReadFull(p.Conn, buf)`: fills all of `buf` or fails. -/
def readFull (avail : List Nat) (buf : List Nat) : Option (List Nat) :=
  if avail.length < buf.length then none else some (avail.take buf.length)

/-- The assignment `p.LastRecv = t` on the peer behind `p`, whose current value is `pp`. -/
def World.setLastRecv (w : World) (p : PeerRef) (pp : Peer) (t : Int) : World :=
  { w with heap := w.heap.set p { pp with LastRecv := t } }

/-- One pass of the `for` loop of `Handle` (lines 82-148) for the peer behind `p`.
`reg` is the value of the package variable `decoders`, `uuidString` the method
`uuid.UUID.String`. -/
def Handle.iter (reg : DecoderRegistry) (cr : Crypto) (uuidString : Bytes 16 → String)
    (id : Bytes 16) (p : PeerRef) (getKey : String → Option PublicKey)
    (w : World) (it : Iter) : World × List Event × Flow :=
  if it.stop then (w, [.pollStop], .ret)
  else
    match w.heap[p]? with
    | none => (w, [.pollStop], .panic "nil pointer dereference")
    | some pp =>
      if it.deadlineErr then (w, [.pollStop, .setHeaderDeadline], .ret)
      else
        match it.hdr with
        | .error .timeout => (w, [.pollStop, .setHeaderDeadline, .readHeader], .next)
        | .error .other => (w, [.pollStop, .setHeaderDeadline, .readHeader], .ret)
        | .ok hdr =>
          let w : World := w.setLastRecv p pp it.now
          let tr : List Event :=
            [.pollStop, .setHeaderDeadline, .readHeader, .setLastRecv it.now, .ping]
          if hdr.Ping then (w, tr, .next)
          else if (hdr.Valid reg).length > 0 then (w, tr ++ [.valid], .ret)
          else
            match PartialMessage hdr with
            | .error e => (w, tr ++ [.valid, .partialMessage], .panic e)
            | .ok msg =>
              let tr := tr ++ [.valid, .partialMessage, .setBodyDeadline]
              if it.bodyDeadlineErr then (w, tr, .ret)
              else
                match readFull it.avail msg.RawBody with
                | none => (w, tr ++ [.readBody msg.RawBody.length], .ret)
                | some body =>
                  let msg : Message := { msg with RawBody := body }
                  let inID := uuidString hdr.Sender
                  let tr := tr ++ [.readBody body.length, .getKey inID]
                  match getKey inID with
                  | none => (w, tr, .next)
                  | some key =>
                    match msg.Verify cr key with
                    | .error e => (w, tr ++ [.verify key], .panic e)
                    | .ok false => (w, tr ++ [.verify key], .ret)
                    | .ok true =>
                      if id = hdr.Sender then (w, tr ++ [.verify key], .next)
                      else (w, tr ++ [.verify key, .send msg], .next)

/-- The `for` loop of `Handle` over the answers of the environment, pass by pass; it
ends with `Flow.next` when the answers run out while the loop is still going. -/
def Handle.loop (reg : DecoderRegistry) (cr : Crypto) (uuidString : Bytes 16 → String)
    (id : Bytes 16) (p : PeerRef) (getKey : String → Option PublicKey)
    (w : World) : List Iter → World × List Event × Flow
  | [] => (w, [], .next)
  | it :: rest =>
    match Handle.iter reg cr uuidString id p getKey w it with
    | (w1, tr, .next) =>
      let r := Handle.loop reg cr uuidString id p getKey w1 rest
      (r.1, tr ++ r.2.1, r.2.2)
    | r => r

/-- How far `Handle` got. -/
inductive Status where
  | running
  | returned
  | panicked (msg : String)
deriving DecidableEq, Repr

/-- The result of `Handle`: the world it leaves, what it did, and how far it got. -/
structure HandleResult where
  world : World
  trace : List Event
  status : Status

/-- The deferred function of `Handle` (lines 76-79): `p.Close()`, then `drop(p)`. A
panic in `p.Close()` skips `drop(p)`. -/
def Handle.cleanup (p : PeerRef) (drop : World → PeerRef → Except String World)
    (w : World) (tr : List Event) (st : Status) : HandleResult :=
  match Peer.Close w p with
  | .error e => { world := w, trace := tr ++ [.close], status := .panicked e }
  | .ok (w1, _) =>
    match drop w1 p with
    | .error e => { world := w1, trace := tr ++ [.close, .drop], status := .panicked e }
    | .ok w2 => { world := w2, trace := tr ++ [.close, .drop], status := st }

/-- The function `Handle`: the loop, then, when the loop returned or panicked, the
deferred cleanup. -/
def Handle (reg : DecoderRegistry) (cr : Crypto) (uuidString : Bytes 16 → String)
    (id : Bytes 16) (p : PeerRef) (drop : World → PeerRef → Except String World)
    (getKey : String → Option PublicKey) (w : World) (iters : List Iter) : HandleResult :=
  match Handle.loop reg cr uuidString id p getKey w iters with
  | (w1, tr, .next) => { world := w1, trace := tr, status := .running }
  | (w1, tr, .ret) => Handle.cleanup p drop w1 tr .returned
  | (w1, tr, .panic e) => Handle.cleanup p drop w1 tr (.panicked e)

/-! ## Well-formed worlds -/

/-- Well-formedness of the peer map: the entries have distinct keys, and each entry
points to an allocated peer whose `Key()` is the key of the entry. -/
def World.WF (w : World) : Prop :=
  (w.node.peers.map Prod.fst).Nodup ∧
  ∀ e ∈ w.node.peers, (w.heap[e.2]?).map Peer.Key = some e.1

/-- Well-formedness can be computed. -/
instance World.decidableWF (w : World) : Decidable w.WF := by
  unfold World.WF
  infer_instance

/-! ## Concrete values used to instantiate the theorems -/

/-- An all-zero signature. -/
def exampleSig : P256Sig :=
  { R := ⟨List.replicate 32 0, rfl⟩, S := ⟨List.replicate 32 0, rfl⟩ }

/-- A version-1 header with encoding 0 and a two-byte body, sent by identity `1…1`. -/
def exampleHeader : Header :=
  { Magic := 103, Version := 1, Hops := 0, Sig := exampleSig,
    Sender := ⟨List.replicate 16 1, rfl⟩, Encoding := 0, Length := 2 }

/-- The message with `exampleHeader` and body `[7, 8]`. -/
def exampleMessage : Message := { RawHeader := exampleHeader, RawBody := [7, 8] }

/-- The all-zero identity. -/
def exampleID : Bytes 16 := ⟨List.replicate 16 0, rfl⟩

/-- Some private key. -/
def exampleKey : PrivateKey := { pub := { X := 1, Y := 2 }, D := 3 }

/-- The range order that visits the entries as they are stored. -/
def inOrder : RangeOrder := ⟨fun m => m, fun m => List.Perm.refl m⟩

/-- The node `NewNode` returns for `maxConns = 1` and an empty identity table. -/
def exampleNode1 : Node :=
  { max := 1, peers := [], wg := 0, ID := exampleID, key := exampleKey, identities := [] }

/-- Two connections from endpoint `a`, one from `b`, one from `c`. -/
def connA : Conn := { id := 0, remoteAddr := "a" }
def connA2 : Conn := { id := 1, remoteAddr := "a" }
def connB : Conn := { id := 2, remoteAddr := "b" }
def connC : Conn := { id := 3, remoteAddr := "c" }

/-- A world with one freshly made peer, on `connA`. -/
def exampleFresh : World :=
  { heap := [newPeer connA 0], closedConns := [],
    node := { exampleNode1 with peers := [("a", 0)], wg := 1 } }

/-- A world whose node has `max = 2` and holds two peers, the one from `b` being the
older. -/
def exampleFull : World :=
  { heap := [newPeer connA 10, newPeer connB 5], closedConns := [],
    node := { exampleNode1 with max := 2, peers := [("a", 0), ("b", 1)], wg := 2 } }

/-- A stand-in for the two library functions: a constant digest, and a signature check
that accepts exactly the public keys with `X = 1`. -/
def exampleCrypto : Crypto :=
  { sha1Sum := fun _ => ⟨List.replicate 20 0, rfl⟩,
    ecdsaVerify := fun k _ _ _ => k.X == 1 }

/-- A stand-in for `uuid.UUID.String`. -/
def exampleUUIDString : Bytes 16 → String := fun b => if b = exampleID then "zero" else "other"

/-- The pass in which `exampleHeader` and its two body bytes arrive. -/
def exampleIter : Iter :=
  { stop := false, deadlineErr := false, hdr := .ok exampleHeader, now := 20,
    bodyDeadlineErr := false, avail := [7, 8] }

/-! ## The header on the wire -/

/-- The sizes `encoding/binary` gives the fields of `Header`, in declaration order:
`byte`, `int8`, `int8`, `[32]byte`, `[32]byte`, `[16]byte`, `int8`, `int32`. -/
def Header.fieldSizes : List Nat := [1, 1, 1, 32, 32, 16, 1, 4]

/-- The value of `binary.Size` on a `Header`: the sum of the sizes of its fields. -/
def Header.binarySize : Nat := Header.fieldSizes.sum

/-- Takes the next `n` bytes of a buffer, when it has that many. -/
def takeBytes (n : Nat) (bs : List Nat) : Option (Bytes n × List Nat) :=
  if h : n ≤ bs.length then some (⟨bs.take n, by simp [h]⟩, bs.drop n) else none

/-- The conversion `int8(b)` of a byte. -/
def int8OfByte (b : Nat) : Int :=
  if b % 256 < 128 then ((b % 256 : Nat) : Int) else ((b % 256 : Nat) : Int) - 256

/-- The conversion `int32(binary.BigEndian.Uint32(b))` of four bytes. -/
def int32OfBytes (b : List Nat) : Int :=
  if bigFromBytes b % 2 ^ 32 < 2 ^ 31 then ((bigFromBytes b % 2 ^ 32 : Nat) : Int)
  else ((bigFromBytes b % 2 ^ 32 : Nat) : Int) - 2 ^ 32

/-- The decoding `encoding/binary` does of a buffer into a `Header`: field after field,
each of its size, integers big-endian. Returns the header and the bytes left over. -/
def Header.decode (buf : List Nat) : Option (Header × List Nat) :=
  match takeBytes 1 buf with
  | none => none
  | some (magic, buf) =>
  match takeBytes 1 buf with
  | none => none
  | some (version, buf) =>
  match takeBytes 1 buf with
  | none => none
  | some (hops, buf) =>
  match takeBytes 32 buf with
  | none => none
  | some (r, buf) =>
  match takeBytes 32 buf with
  | none => none
  | some (s, buf) =>
  match takeBytes 16 buf with
  | none => none
  | some (sender, buf) =>
  match takeBytes 1 buf with
  | none => none
  | some (encoding, buf) =>
  match takeBytes 4 buf with
  | none => none
  | some (length, buf) =>
    some ({ Magic := magic.val.headD 0, Version := int8OfByte (version.val.headD 0),
            Hops := int8OfByte (hops.val.headD 0), Sig := { R := r, S := s },
            Sender := sender, Encoding := int8OfByte (encoding.val.headD 0),
            Length := int32OfBytes length.val }, buf)

/-- The call `binary.Read(p.Conn, binary.BigEndian, hdr)` of `Handle` (line 95) on a
connection that yields the bytes `avail`: `io.ReadFull` of `binary.Size` bytes, then the
decoding of that buffer. `none` is an error return (too few bytes arrived); otherwise
the header and the bytes of `avail` not consumed. -/
def Header.read (avail : List Nat) : Option (Header × List Nat) :=
  match takeBytes Header.binarySize avail with
  | none => none
  | some (buf, rest) => (Header.decode buf.val).map (fun r => (r.1, rest))

/-- The bytes of `exampleHeader` on the wire, followed by the two body bytes. -/
def exampleWire : List Nat :=
  [103, 1, 0] ++ List.replicate 64 0 ++ List.replicate 16 1 ++ [0] ++ [0, 0, 0, 2] ++ [7, 8]

/-- A ping header: version 0 and hops 0; the other fields are arbitrary. -/
def examplePing : Header :=
  { exampleHeader with Version := 0, Hops := 0, Encoding := -7, Length := -1 }

/-- The pass in which `examplePing` arrives. -/
def examplePingIter : Iter :=
  { stop := false, deadlineErr := false, hdr := .ok examplePing, now := 30,
    bodyDeadlineErr := false, avail := [] }

/-- The world of `exampleFresh` after the writer goroutine of the peer has run its
deferred `p.Close()` (peers.go line 52): the outbound queue and the connection are
closed, the field `closed` is still false. -/
def exampleWriterClosed : World :=
  { heap := [{ newPeer connA 0 with writeChan := { queue := [], closed := true } }],
    closedConns := [0],
    node := { exampleNode1 with peers := [("a", 0)], wg := 1 } }

/-! # Theorems -/

/-! ## Header validation -/

/-- C1: `Header.Valid` returns no violation exactly when the magic byte is `'g'`, the
version is 1, the encoding is a key of the decoder registry and the length is at least 1;
it returns at least one violation when one of the four checks fails; and the number of
violations is the number of failing checks. -/
theorem Header.Valid_violations (reg : DecoderRegistry) (h : Header) :
    (h.Valid reg = [] ↔
      (h.Magic = MagicByte ∧ h.Version = 1 ∧ h.Encoding ∈ reg ∧ 1 ≤ h.Length)) ∧
    ((h.Magic ≠ MagicByte ∨ h.Version ≠ 1 ∨ h.Encoding ∉ reg ∨ h.Length ≤ 0) →
      1 ≤ (h.Valid reg).length) ∧
    (h.Valid reg).length =
      (if h.Magic ≠ MagicByte then 1 else 0) + (if h.Version ≠ 1 then 1 else 0) +
      (if h.Encoding ∉ reg then 1 else 0) + (if h.Length ≤ 0 then 1 else 0) := by
  have hlen : h.Length < 1 ↔ h.Length ≤ 0 := by omega
  unfold Header.Valid
  simp only [List.elem_eq_mem, Bool.not_eq_true, decide_eq_false_iff_not, List.nil_append]
  by_cases h1 : h.Magic = MagicByte <;> by_cases h2 : h.Version = 1 <;>
    by_cases h3 : h.Encoding ∈ reg <;> by_cases h4 : h.Length ≤ 0 <;>
    simp [h1, h2, h3, h4, hlen]
  all_goals omega

/-! ## The signed bytes -/

theorem setIndex_mid (pre post : List Nat) (x v : Nat) :
    setIndex (pre ++ x :: post) pre.length v = .ok (pre ++ v :: post) := by
  unfold setIndex
  have h : pre.length < (pre ++ x :: post).length := by simp
  rw [if_pos h]
  simp

theorem writeAt_mid (src : List Nat) : ∀ (pre mid post : List Nat), mid.length = src.length →
    writeAt (pre ++ mid ++ post) pre.length src = .ok (pre ++ src ++ post) := by
  induction src with
  | nil =>
    intro pre mid post h
    have : mid = [] := List.eq_nil_of_length_eq_zero h
    subst this
    simp [writeAt]
  | cons v rest ih =>
    intro pre mid post h
    cases mid with
    | nil => simp at h
    | cons x mid1 =>
      have h1 : mid1.length = rest.length := by simpa using h
      have e1 : pre ++ x :: mid1 ++ post = pre ++ x :: (mid1 ++ post) := by simp
      have e2 : pre ++ v :: (mid1 ++ post) = (pre ++ [v]) ++ mid1 ++ post := by simp
      have e3 : pre.length + 1 = (pre ++ [v]).length := by simp
      rw [writeAt, e1, setIndex_mid]
      show writeAt (pre ++ v :: (mid1 ++ post)) (pre.length + 1) rest = _
      rw [e2, e3, ih (pre ++ [v]) mid1 post h1]
      simp

theorem putUint32_mid (pre mid post : List Nat) (v : Nat) (h : mid.length = 4) :
    putUint32 (pre ++ mid ++ post) pre.length v =
      .ok (pre ++ [v / 2 ^ 24 % 256, v / 2 ^ 16 % 256, v / 2 ^ 8 % 256, v % 256] ++ post) := by
  unfold putUint32
  have h1 : ¬ (pre ++ mid ++ post).length < pre.length := by simp
  have h2 : ¬ (pre ++ mid ++ post).length - pre.length < 4 := by simp; omega
  rw [if_neg h1, if_neg h2]
  have e1 : (pre ++ mid ++ post).take pre.length = pre := by
    rw [List.append_assoc, List.take_left]
  have e2 : (pre ++ mid ++ post).drop (pre.length + 4) = post := by
    have : pre.length + 4 = (pre ++ mid).length := by simp [h]
    rw [this, List.drop_left]
  rw [e1, e2]

theorem copyAt_end (pre mid src : List Nat) (h : mid.length = src.length) :
    copyAt (pre ++ mid) pre.length src = .ok (pre ++ src) := by
  unfold copyAt
  have h1 : ¬ (pre ++ mid).length < pre.length := by simp
  rw [if_neg h1]
  have e0 : (pre ++ mid).length - pre.length = src.length := by simp [h]
  have e1 : (pre ++ mid).take pre.length = pre := List.take_left pre mid
  simp only [e0, min_self, List.take_length, e1]
  have e2 : (pre ++ mid).drop (pre.length + src.length) = [] := by
    apply List.drop_of_length_le
    simp [h]
  rw [e2]
  simp

theorem makeBytes_ok (n : Nat) : makeBytes (n : Int) = .ok (List.replicate n 0) := by
  unfold makeBytes
  simp

theorem writeAt_fresh (n : Nat) (src : List Nat) (h : src.length = n) :
    writeAt (List.replicate n 0) 0 src = .ok src := by
  have := writeAt_mid src [] (List.replicate n 0) [] (by simp [h])
  simpa using this

theorem P256Sig.Get_ok (p : P256Sig) :
    p.Get = .ok (bigFromBytes p.R.val, bigFromBytes p.S.val) := by
  unfold P256Sig.Get
  have h32 : makeBytes 32 = .ok (List.replicate 32 0) := makeBytes_ok 32
  rw [h32]
  simp only [bind, Except.bind, writeAt_fresh 32 p.R.val p.R.property, 
    writeAt_fresh 32 p.S.val p.S.property]
  rfl

theorem Message.signedPart_ok (m : Message)
    (hbody : (m.RawBody.length : Int) = m.RawHeader.Length) :
    m.signedPart = .ok (m.RawHeader.Sender.val ++ [(m.RawHeader.Encoding % 256).toNat] ++
      [(m.RawHeader.Length % 2 ^ 32).toNat / 2 ^ 24 % 256,
       (m.RawHeader.Length % 2 ^ 32).toNat / 2 ^ 16 % 256,
       (m.RawHeader.Length % 2 ^ 32).toNat / 2 ^ 8 % 256,
       (m.RawHeader.Length % 2 ^ 32).toNat % 256] ++ m.RawBody) := by
  unfold Message.signedPart
  have hs := m.RawHeader.Sender.property
  generalize m.RawHeader.Sender.val = snd at hs
  generalize (m.RawHeader.Encoding % 256).toNat = e
  generalize (m.RawHeader.Length % 2 ^ 32).toNat = v
  have e0 : ((16 : Nat) : Int) + 1 + 4 + m.RawHeader.Length =
      ((21 + m.RawBody.length : Nat) : Int) := by
    rw [← hbody]; push_cast; ring
  have e1 : List.replicate (21 + m.RawBody.length) 0 =
      [] ++ List.replicate 16 0 ++
        (0 :: (List.replicate 4 0 ++ List.replicate m.RawBody.length 0)) := by
    simp [List.replicate_add]
  have s1 := writeAt_mid snd [] (List.replicate 16 0)
    (0 :: (List.replicate 4 0 ++ List.replicate m.RawBody.length 0)) (by simp [hs])
  have s2 := setIndex_mid snd (List.replicate 4 0 ++ List.replicate m.RawBody.length 0) 0 e
  have s3 := putUint32_mid (snd ++ [e]) (List.replicate 4 0)
    (List.replicate m.RawBody.length 0) v (by simp)
  have s4 := copyAt_end (snd ++ [e] ++ [v / 2 ^ 24 % 256, v / 2 ^ 16 % 256, v / 2 ^ 8 % 256,
    v % 256]) (List.replicate m.RawBody.length 0) m.RawBody (by simp)
  simp only [List.length_nil, List.nil_append, List.length_append, List.length_singleton,
    List.length_cons, hs] at s1 s2 s3 s4
  rw [e0, makeBytes_ok, e1]
  simp only [bind, Except.bind, List.nil_append, s1]
  rw [s2]
  have e2 : snd ++ e :: (List.replicate 4 0 ++ List.replicate m.RawBody.length 0) =
      snd ++ [e] ++ List.replicate 4 0 ++ List.replicate m.RawBody.length 0 := by simp
  simp only [e2, s3]
  exact s4

/-- C10: for a message whose body has exactly `Length` bytes, the buffer that `Verify`
hashes is `Sender` (16 bytes), then `Encoding` as one byte, then `Length` as four
big-endian bytes, then the body, `21 + Length` bytes in all; `Verify` is `ecdsa.Verify`
of the SHA-1 of that buffer with the signature integers; and replacing `Magic`,
`Version` and `Hops` by any other values leaves the result of `Verify` unchanged for
every public key. -/
theorem Message.Verify_signed_bytes (m : Message)
    (hbody : (m.RawBody.length : Int) = m.RawHeader.Length) :
    m.signedPart = .ok (m.RawHeader.Sender.val ++ [(m.RawHeader.Encoding % 256).toNat] ++
      [(m.RawHeader.Length % 2 ^ 32).toNat / 2 ^ 24 % 256,
       (m.RawHeader.Length % 2 ^ 32).toNat / 2 ^ 16 % 256,
       (m.RawHeader.Length % 2 ^ 32).toNat / 2 ^ 8 % 256,
       (m.RawHeader.Length % 2 ^ 32).toNat % 256] ++ m.RawBody) ∧
    (((m.RawHeader.Sender.val ++ [(m.RawHeader.Encoding % 256).toNat] ++
      [(m.RawHeader.Length % 2 ^ 32).toNat / 2 ^ 24 % 256,
       (m.RawHeader.Length % 2 ^ 32).toNat / 2 ^ 16 % 256,
       (m.RawHeader.Length % 2 ^ 32).toNat / 2 ^ 8 % 256,
       (m.RawHeader.Length % 2 ^ 32).toNat % 256] ++ m.RawBody).length : Int) =
      21 + m.RawHeader.Length) ∧
    (∀ (cr : Crypto) (pubkey : PublicKey), m.Verify cr pubkey =
      .ok (cr.ecdsaVerify pubkey
        (cr.sha1Sum (m.RawHeader.Sender.val ++ [(m.RawHeader.Encoding % 256).toNat] ++
          [(m.RawHeader.Length % 2 ^ 32).toNat / 2 ^ 24 % 256,
           (m.RawHeader.Length % 2 ^ 32).toNat / 2 ^ 16 % 256,
           (m.RawHeader.Length % 2 ^ 32).toNat / 2 ^ 8 % 256,
           (m.RawHeader.Length % 2 ^ 32).toNat % 256] ++ m.RawBody)).val
        (bigFromBytes m.RawHeader.Sig.R.val) (bigFromBytes m.RawHeader.Sig.S.val))) ∧
    (∀ (magic : Nat) (version hops : Int) (cr : Crypto) (pubkey : PublicKey),
      Message.Verify cr { m with RawHeader := { m.RawHeader with
        Magic := magic, Version := version, Hops := hops } } pubkey = m.Verify cr pubkey) := by
  refine ⟨Message.signedPart_ok m hbody, ?_, ?_, ?_⟩
  · simp only [List.length_append, List.length_cons, List.length_nil, List.length_singleton,
      m.RawHeader.Sender.property]
    rw [← hbody]; push_cast; ring
  · intro cr pubkey
    unfold Message.Verify
    rw [Message.signedPart_ok m hbody, P256Sig.Get_ok]
    have h20 : makeBytes 20 = .ok (List.replicate 20 0) := makeBytes_ok 20
    rw [h20]
    simp only [bind, Except.bind]
    rw [writeAt_fresh 20 _ (cr.sha1Sum _).property]
    rfl
  · intro magic version hops cr pubkey
    rfl

/-! ## The peer map -/

theorem lookup_mapSet_self (m : PeerMap) (k : String) (v : PeerRef) :
    (mapSet m k v).lookup k = some v := by
  induction m with
  | nil => simp [mapSet, List.lookup]
  | cons e rest ih =>
    obtain ⟨k1, v1⟩ := e
    by_cases h : k1 = k
    · simp [mapSet, h, List.lookup]
    · have h2 : (k == k1) = false := by simpa using fun h3 => h h3.symm
      simp [mapSet, h, List.lookup, h2, ih]

theorem lookup_mapSet_ne (m : PeerMap) (k k2 : String) (v : PeerRef) (hne : k2 ≠ k) :
    (mapSet m k v).lookup k2 = m.lookup k2 := by
  induction m with
  | nil =>
    have h2 : (k2 == k) = false := by simpa using hne
    simp [mapSet, List.lookup, h2]
  | cons e rest ih =>
    obtain ⟨k1, v1⟩ := e
    by_cases h : k1 = k
    · subst h
      have h2 : (k2 == k1) = false := by simpa using hne
      simp [mapSet, List.lookup, h2]
    · simp only [mapSet, h, if_false, List.lookup, ih]

theorem lookup_mapDelete_self (m : PeerMap) (k : String) :
    (mapDelete m k).lookup k = none := by
  induction m with
  | nil => simp [mapDelete]
  | cons e rest ih =>
    obtain ⟨k1, v1⟩ := e
    by_cases h : k1 = k
    · simp [mapDelete, h, ih]
    · have h2 : (k == k1) = false := by simpa using fun h3 => h h3.symm
      simp [mapDelete, h, List.lookup, h2, ih]

theorem lookup_mapDelete_ne (m : PeerMap) (k k2 : String) (hne : k2 ≠ k) :
    (mapDelete m k).lookup k2 = m.lookup k2 := by
  induction m with
  | nil => simp [mapDelete]
  | cons e rest ih =>
    obtain ⟨k1, v1⟩ := e
    by_cases h : k1 = k
    · subst h
      have h2 : (k2 == k1) = false := by simpa using hne
      simp [mapDelete, List.lookup, h2, ih]
    · simp only [mapDelete, h, if_false, List.lookup, ih]

theorem lookup_eq_none_iff (m : PeerMap) (k : String) :
    m.lookup k = none ↔ k ∉ m.map Prod.fst := by
  induction m with
  | nil => simp
  | cons e rest ih =>
    obtain ⟨k1, v1⟩ := e
    by_cases h : k = k1
    · subst h; simp [List.lookup]
    · have h2 : (k == k1) = false := by simpa using h
      simp only [List.lookup, h2, ih, List.map_cons, List.mem_cons, h, false_or]

theorem mapSet_absent (m : PeerMap) (k : String) (v : PeerRef) (h : m.lookup k = none) :
    mapSet m k v = m ++ [(k, v)] := by
  induction m with
  | nil => simp [mapSet]
  | cons e rest ih =>
    obtain ⟨k1, v1⟩ := e
    by_cases h1 : k = k1
    · subst h1; simp [List.lookup] at h
    · have h2 : (k == k1) = false := by simpa using h1
      simp only [List.lookup, h2] at h
      have h3 : ¬ k1 = k := fun h4 => h1 h4.symm
      simp [mapSet, h3, ih h]

theorem length_mapSet_present (m : PeerMap) (k : String) (v r : PeerRef)
    (h : m.lookup k = some r) : (mapSet m k v).length = m.length := by
  induction m with
  | nil => simp at h
  | cons e rest ih =>
    obtain ⟨k1, v1⟩ := e
    by_cases h1 : k1 = k
    · simp [mapSet, h1]
    · have h2 : (k == k1) = false := by simpa using fun h3 => h1 h3.symm
      simp only [List.lookup, h2] at h
      simp [mapSet, h1, ih h]

theorem mem_mapDelete (m : PeerMap) (k : String) (e : String × PeerRef) :
    e ∈ mapDelete m k ↔ e ∈ m ∧ e.1 ≠ k := by
  induction m with
  | nil => simp [mapDelete]
  | cons e1 rest ih =>
    obtain ⟨k1, v1⟩ := e1
    by_cases h : k1 = k
    · subst h
      simp only [mapDelete, if_true, ih, List.mem_cons]
      constructor
      · rintro ⟨h1, h2⟩; exact ⟨Or.inr h1, h2⟩
      · rintro ⟨h1 | h1, h2⟩
        · subst h1; exact absurd rfl h2
        · exact ⟨h1, h2⟩
    · simp only [mapDelete, h, if_false, List.mem_cons, ih]
      constructor
      · rintro (h1 | ⟨h1, h2⟩)
        · subst h1; exact ⟨Or.inl rfl, h⟩
        · exact ⟨Or.inr h1, h2⟩
      · rintro ⟨h1 | h1, h2⟩
        · exact Or.inl h1
        · exact Or.inr ⟨h1, h2⟩

theorem length_mapDelete_le (m : PeerMap) (k : String) :
    (mapDelete m k).length ≤ m.length := by
  induction m with
  | nil => simp [mapDelete]
  | cons e rest ih =>
    obtain ⟨k1, v1⟩ := e
    by_cases h : k1 = k
    · simp only [mapDelete, h, if_true, List.length_cons]; omega
    · simp only [mapDelete, h, if_false, List.length_cons]; omega

theorem mapDelete_absent (m : PeerMap) (k : String) (h : k ∉ m.map Prod.fst) :
    mapDelete m k = m := by
  induction m with
  | nil => simp [mapDelete]
  | cons e rest ih =>
    obtain ⟨k1, v1⟩ := e
    simp only [List.map_cons, List.mem_cons, not_or] at h
    have h1 : ¬ k1 = k := fun h2 => h.1 h2.symm
    simp [mapDelete, h1, ih h.2]

theorem length_mapDelete_present (m : PeerMap) (k : String)
    (hnd : (m.map Prod.fst).Nodup) (hk : k ∈ m.map Prod.fst) :
    (mapDelete m k).length + 1 = m.length := by
  induction m with
  | nil => simp at hk
  | cons e rest ih =>
    obtain ⟨k1, v1⟩ := e
    simp only [List.map_cons, List.nodup_cons] at hnd
    by_cases h1 : k1 = k
    · subst h1
      simp [mapDelete, mapDelete_absent rest k1 hnd.1]
    · have hk2 : k ∈ rest.map Prod.fst := by
        simp only [List.map_cons, List.mem_cons] at hk
        rcases hk with hk | hk
        · exact absurd hk.symm h1
        · exact hk
      simp only [mapDelete, h1, if_false, List.length_cons]
      have := ih hnd.2 hk2
      omega

theorem nodup_mapDelete (m : PeerMap) (k : String) (hnd : (m.map Prod.fst).Nodup) :
    ((mapDelete m k).map Prod.fst).Nodup := by
  induction m with
  | nil => simp [mapDelete]
  | cons e rest ih =>
    obtain ⟨k1, v1⟩ := e
    simp only [List.map_cons, List.nodup_cons] at hnd
    by_cases h1 : k1 = k
    · simp only [mapDelete, h1, if_true]; exact ih hnd.2
    · simp only [mapDelete, h1, if_false, List.map_cons, List.nodup_cons]
      refine ⟨?_, ih hnd.2⟩
      intro hmem
      apply hnd.1
      obtain ⟨e, he, hek⟩ := List.mem_map.mp hmem
      exact List.mem_map.mpr ⟨e, ((mem_mapDelete rest k e).mp he).1, hek⟩

theorem keys_mapSet_present (m : PeerMap) (k : String) (v r : PeerRef)
    (h : m.lookup k = some r) : (mapSet m k v).map Prod.fst = m.map Prod.fst := by
  induction m with
  | nil => simp at h
  | cons e rest ih =>
    obtain ⟨k1, v1⟩ := e
    by_cases h1 : k1 = k
    · simp [mapSet, h1]
    · have h2 : (k == k1) = false := by simpa using fun h3 => h1 h3.symm
      simp only [List.lookup, h2] at h
      simp [mapSet, h1, ih h]

theorem mem_mapSet (m : PeerMap) (k : String) (v : PeerRef) (e : String × PeerRef)
    (he : e ∈ mapSet m k v) : e = (k, v) ∨ e ∈ m := by
  induction m with
  | nil => simp [mapSet] at he; exact Or.inl he
  | cons e1 rest ih =>
    obtain ⟨k1, v1⟩ := e1
    by_cases h1 : k1 = k
    · simp only [mapSet, h1, if_true, List.mem_cons] at he
      rcases he with he | he
      · exact Or.inl he
      · exact Or.inr (List.mem_cons_of_mem _ he)
    · simp only [mapSet, h1, if_false, List.mem_cons] at he
      rcases he with he | he
      · right; subst he; exact List.mem_cons_self _ _
      · rcases ih he with h | h
        · exact Or.inl h
        · exact Or.inr (List.mem_cons_of_mem _ h)

/-! ## The eviction scan -/

theorem heap_append_valid (heap : List Peer) (x pp : Peer) (r : PeerRef)
    (h : heap[r]? = some pp) : (heap ++ [x])[r]? = some pp := by
  have hr : r < heap.length := by
    by_contra hc
    rw [List.getElem?_eq_none (Nat.le_of_not_lt hc)] at h
    exact Option.noConfusion h
  rw [List.getElem?_append_left hr]
  exact h

theorem scanOldest_some (heap : List Peer) : ∀ (l : PeerMap) (a : PeerRef) (pa : Peer),
    heap[a]? = some pa → (∀ e ∈ l, ∃ pe, heap[e.2]? = some pe) →
    ∃ o po, scanOldest heap l (some a) = .ok (some o) ∧ heap[o]? = some po ∧
      (o = a ∨ ∃ e ∈ l, e.2 = o) ∧ po.LastRecv ≤ pa.LastRecv ∧
      ∀ e ∈ l, ∀ pe, heap[e.2]? = some pe → po.LastRecv ≤ pe.LastRecv := by
  intro l
  induction l with
  | nil =>
    intro a pa ha _
    exact ⟨a, pa, rfl, ha, Or.inl rfl, le_refl _, by simp⟩
  | cons e rest ih =>
    intro a pa ha hv
    obtain ⟨k, v⟩ := e
    obtain ⟨pv, hpv⟩ := hv (k, v) (List.mem_cons_self _ _)
    have hv2 : ∀ e ∈ rest, ∃ pe, heap[e.2]? = some pe :=
      fun e he => hv e (List.mem_cons_of_mem _ he)
    simp only at hpv
    by_cases hlt : pv.LastRecv < pa.LastRecv
    · obtain ⟨o, po, h1, h2, h3, h4, h5⟩ := ih v pv hpv hv2
      refine ⟨o, po, ?_, h2, ?_, by omega, ?_⟩
      · simp only [scanOldest, hpv, ha, hlt, if_true, h1]
      · rcases h3 with h3 | ⟨e, he, h3⟩
        · exact Or.inr ⟨(k, v), List.mem_cons_self _ _, h3.symm⟩
        · exact Or.inr ⟨e, List.mem_cons_of_mem _ he, h3⟩
      · intro e he pe hpe
        rcases List.mem_cons.mp he with he | he
        · subst he
          simp only at hpe
          rw [hpv] at hpe
          cases hpe
          exact h4
        · exact h5 e he pe hpe
    · obtain ⟨o, po, h1, h2, h3, h4, h5⟩ := ih a pa ha hv2
      refine ⟨o, po, ?_, h2, ?_, h4, ?_⟩
      · simp only [scanOldest, hpv, ha, hlt, if_false, h1]
      · rcases h3 with h3 | ⟨e, he, h3⟩
        · exact Or.inl h3
        · exact Or.inr ⟨e, List.mem_cons_of_mem _ he, h3⟩
      · intro e he pe hpe
        rcases List.mem_cons.mp he with he | he
        · subst he
          simp only at hpe
          rw [hpv] at hpe
          cases hpe
          omega
        · exact h5 e he pe hpe

theorem scanOldest_none (heap : List Peer) (l : PeerMap) (hne : l ≠ [])
    (hv : ∀ e ∈ l, ∃ pe, heap[e.2]? = some pe) :
    ∃ o po, scanOldest heap l none = .ok (some o) ∧ heap[o]? = some po ∧
      (∃ e ∈ l, e.2 = o) ∧
      ∀ e ∈ l, ∀ pe, heap[e.2]? = some pe → po.LastRecv ≤ pe.LastRecv := by
  cases l with
  | nil => exact absurd rfl hne
  | cons e rest =>
    obtain ⟨k, v⟩ := e
    obtain ⟨pv, hpv⟩ := hv (k, v) (List.mem_cons_self _ _)
    simp only at hpv
    obtain ⟨o, po, h1, h2, h3, h4, h5⟩ := scanOldest_some heap rest v pv hpv
      (fun e he => hv e (List.mem_cons_of_mem _ he))
    refine ⟨o, po, ?_, h2, ?_, ?_⟩
    · simp only [scanOldest, h1]
    · rcases h3 with h3 | ⟨e, he, h3⟩
      · exact ⟨(k, v), List.mem_cons_self _ _, h3.symm⟩
      · exact ⟨e, List.mem_cons_of_mem _ he, h3⟩
    · intro e he pe hpe
      rcases List.mem_cons.mp he with he | he
      · subst he
        simp only at hpe
        rw [hpv] at hpe
        cases hpe
        exact h4
      · exact h5 e he pe hpe

theorem World.WF.valid {w : World} (hwf : w.WF) (e : String × PeerRef) (he : e ∈ w.node.peers) :
    ∃ pe, w.heap[e.2]? = some pe ∧ pe.Key = e.1 := by
  have h := hwf.2 e he
  cases hh : w.heap[e.2]? with
  | none => rw [hh] at h; simp at h
  | some pe => rw [hh] at h; exact ⟨pe, rfl, by simpa using h⟩

/-! ## AddPeer and DropPeer -/

theorem Conn.Close_fst (w : World) (c : Conn) :
    (Conn.Close w c).1 = { w with closedConns := closeLog w.closedConns c } := by
  unfold Conn.Close closeLog
  by_cases h : c.id ∈ w.closedConns <;> simp [h]

theorem mem_closeLog (l : List Nat) (c : Conn) (i : Nat) :
    i ∈ closeLog l c ↔ (i ∈ l ∨ i = c.id) := by
  unfold closeLog
  by_cases h : c.id ∈ l
  · simp only [h, if_true]
    constructor
    · exact Or.inl
    · rintro (h1 | h1)
      · exact h1
      · rw [h1]; exact h
  · simp [h]

theorem Node.AddPeer_evict_eq (visit : RangeOrder) (w : World) (c : Conn) (now : Int)
    (o : PeerRef) (po : Peer)
    (hfull : (w.node.peers.length : Int) = w.node.max)
    (hnew : w.node.peers.lookup c.remoteAddr = none)
    (hscan : scanOldest (w.heap ++ [newPeer c now]) (visit.val w.node.peers) none =
      .ok (some o))
    (hpo : (w.heap ++ [newPeer c now])[o]? = some po) :
    Node.AddPeer visit w c now =
      .ok ({ heap := w.heap ++ [newPeer c now],
             closedConns := closeLog w.closedConns po.Conn,
             node := { w.node with
               peers := mapSet (mapDelete w.node.peers po.Key) c.remoteAddr w.heap.length } },
           w.heap.length) := by
  unfold Node.AddPeer
  simp only [Conn.Close_fst]
  simp only [newPeer, Peer.Key] at hnew hscan hpo ⊢
  simp only [hnew, hfull, if_true]
  rw [hscan]
  simp only [hpo]

/-- C4: at capacity, a connection from an endpoint that is not in the map evicts exactly
one entry, whose peer has a `LastRecv` not after that of any peer in the map: the call
returns, that peer's connection is closed (and no other), its entry is removed, every
other entry is unchanged, the new peer is stored under its key, and the map keeps its
size. -/
theorem Node.AddPeer_evicts_oldest (visit : RangeOrder) (w : World) (c : Conn) (now : Int)
    (hwf : w.WF) (hmax : 1 ≤ w.node.max)
    (hfull : (w.node.peers.length : Int) = w.node.max)
    (hnew : w.node.peers.lookup c.remoteAddr = none) :
    ∃ (w1 : World) (victim : String × PeerRef) (pv : Peer),
      Node.AddPeer visit w c now = .ok (w1, w.heap.length) ∧
      victim ∈ w.node.peers ∧ w.heap[victim.2]? = some pv ∧
      (∀ e ∈ w.node.peers, ∀ pe, w.heap[e.2]? = some pe → pv.LastRecv ≤ pe.LastRecv) ∧
      pv.Conn.id ∈ w1.closedConns ∧
      (∀ i, i ∈ w1.closedConns → i ∈ w.closedConns ∨ i = pv.Conn.id) ∧
      w1.node.peers = mapDelete w.node.peers victim.1 ++ [(c.remoteAddr, w.heap.length)] ∧
      (mapDelete w.node.peers victim.1).length + 1 = w.node.peers.length ∧
      w1.node.peers.lookup victim.1 = none ∧
      (∀ k, k ≠ victim.1 → k ≠ c.remoteAddr →
        w1.node.peers.lookup k = w.node.peers.lookup k) ∧
      w1.node.peers.lookup c.remoteAddr = some w.heap.length ∧
      w1.heap = w.heap ++ [newPeer c now] ∧
      w1.node.peers.length = w.node.peers.length ∧
      w1.node.wg = w.node.wg := by
  have hne : visit.val w.node.peers ≠ [] := by
    intro h
    have hp := (visit.property w.node.peers).length_eq
    rw [h] at hp
    simp only [List.length_nil] at hp
    rw [← hp] at hfull
    simp only [Nat.cast_zero] at hfull
    omega
  have hv : ∀ e ∈ visit.val w.node.peers,
      ∃ pe, (w.heap ++ [newPeer c now])[e.2]? = some pe := by
    intro e he
    obtain ⟨pe, hpe, _⟩ := hwf.valid e ((visit.property w.node.peers).mem_iff.mp he)
    exact ⟨pe, heap_append_valid _ _ _ _ hpe⟩
  obtain ⟨o, po, hscan, hpo, ⟨e, he, heo⟩, hmin⟩ :=
    scanOldest_none (w.heap ++ [newPeer c now]) (visit.val w.node.peers) hne hv
  have hemem : e ∈ w.node.peers := (visit.property w.node.peers).mem_iff.mp he
  obtain ⟨pe, hpe, hkey⟩ := hwf.valid e hemem
  have hpeo : po = pe := by
    have := heap_append_valid w.heap (newPeer c now) pe e.2 hpe
    rw [heo, hpo] at this
    exact Option.some.inj this
  subst hpeo
  have hkmem : e.1 ∈ w.node.peers.map Prod.fst := List.mem_map_of_mem _ hemem
  have hvne : e.1 ≠ c.remoteAddr := by
    intro h
    rw [h] at hkmem
    exact (lookup_eq_none_iff _ _).mp hnew hkmem
  have habs : (mapDelete w.node.peers e.1).lookup c.remoteAddr = none := by
    rw [lookup_mapDelete_ne _ _ _ (Ne.symm hvne)]
    exact hnew
  have hlen := length_mapDelete_present w.node.peers e.1 hwf.1 hkmem
  refine ⟨_, e, po, Node.AddPeer_evict_eq visit w c now o po hfull hnew hscan hpo,
    hemem, hpe, ?_, ?_, ?_, ?_, hlen, ?_, ?_, ?_, rfl, ?_, rfl⟩
  · intro e2 he2 pe2 hpe2
    exact hmin e2 ((visit.property w.node.peers).mem_iff.mpr he2) pe2
      (heap_append_valid _ _ _ _ hpe2)
  · exact (mem_closeLog _ _ _).mpr (Or.inr rfl)
  · intro i hi
    exact (mem_closeLog _ _ _).mp hi
  · simp only [hkey]
    exact mapSet_absent _ _ _ habs
  · simp only [hkey]
    rw [lookup_mapSet_ne _ _ _ _ hvne]
    exact lookup_mapDelete_self _ _
  · intro k hk1 hk2
    simp only [hkey]
    rw [lookup_mapSet_ne _ _ _ _ hk2, lookup_mapDelete_ne _ _ _ hk1]
  · simp only [hkey]
    exact lookup_mapSet_self _ _ _
  · simp only [hkey]
    rw [mapSet_absent _ _ _ habs]
    simp only [List.length_append, List.length_singleton]
    exact hlen

theorem mapSet_mapSet (m : PeerMap) (k : String) (v : PeerRef) :
    mapSet (mapSet m k v) k v = mapSet m k v := by
  induction m with
  | nil => simp [mapSet]
  | cons e rest ih =>
    obtain ⟨k1, v1⟩ := e
    by_cases h : k1 = k
    · simp [mapSet, h]
    · simp [mapSet, h, ih]

theorem Node.AddPeer_replace_eq (visit : RangeOrder) (w : World) (c : Conn) (now : Int)
    (v : PeerRef) (pv : Peer)
    (hold : w.node.peers.lookup c.remoteAddr = some v) (hpv : w.heap[v]? = some pv) :
    Node.AddPeer visit w c now =
      .ok ({ heap := w.heap ++ [newPeer c now],
             closedConns := closeLog w.closedConns pv.Conn,
             node := { w.node with
               peers := mapSet w.node.peers c.remoteAddr w.heap.length } },
           w.heap.length) := by
  have hpv2 := heap_append_valid w.heap (newPeer c now) pv v hpv
  unfold Node.AddPeer
  simp only [Conn.Close_fst]
  simp only [newPeer, Peer.Key] at hold hpv2 ⊢
  simp only [hold, hpv2, mapSet_mapSet]

theorem Node.AddPeer_admit_eq (visit : RangeOrder) (w : World) (c : Conn) (now : Int)
    (hnew : w.node.peers.lookup c.remoteAddr = none)
    (hroom : (w.node.peers.length : Int) ≠ w.node.max) :
    Node.AddPeer visit w c now =
      match WaitGroup.Add w.node.wg 1 with
      | .error e => .error e
      | .ok wg =>
        .ok ({ heap := w.heap ++ [newPeer c now],
               closedConns := w.closedConns,
               node := { w.node with
                 wg := wg, peers := mapSet w.node.peers c.remoteAddr w.heap.length } },
             w.heap.length) := by
  unfold Node.AddPeer
  simp only [newPeer, Peer.Key] at hnew ⊢
  simp only [hnew, hroom, if_false]

/-- C6: a connection from an endpoint already in the map replaces the entry under that
key: the call returns, the prior peer's connection is closed (and no other), the key
now holds the new peer, every other key holds what it held, and the size of the map and
the counter of the wait group are unchanged. Nothing is assumed about the size of the
map, so this is also what happens at capacity. -/
theorem Node.AddPeer_reconnect (visit : RangeOrder) (w : World) (c : Conn) (now : Int)
    (v : PeerRef) (pv : Peer)
    (hold : w.node.peers.lookup c.remoteAddr = some v) (hpv : w.heap[v]? = some pv) :
    ∃ w1 : World,
      Node.AddPeer visit w c now = .ok (w1, w.heap.length) ∧
      pv.Conn.id ∈ w1.closedConns ∧
      (∀ i, i ∈ w1.closedConns → i ∈ w.closedConns ∨ i = pv.Conn.id) ∧
      w1.node.peers.lookup c.remoteAddr = some w.heap.length ∧
      (∀ k, k ≠ c.remoteAddr → w1.node.peers.lookup k = w.node.peers.lookup k) ∧
      w1.node.peers.length = w.node.peers.length ∧
      w1.node.wg = w.node.wg ∧
      w1.heap = w.heap ++ [newPeer c now] := by
  refine ⟨_, Node.AddPeer_replace_eq visit w c now v pv hold hpv, ?_, ?_, ?_, ?_, ?_,
    rfl, rfl⟩
  · exact (mem_closeLog _ _ _).mpr (Or.inr rfl)
  · intro i hi
    exact (mem_closeLog _ _ _).mp hi
  · exact lookup_mapSet_self _ _ _
  · intro k hk
    exact lookup_mapSet_ne _ _ _ _ hk
  · exact length_mapSet_present _ _ _ _ hold

theorem mem_of_lookup (m : PeerMap) (k : String) (v : PeerRef) (h : m.lookup k = some v) :
    (k, v) ∈ m := by
  induction m with
  | nil => simp at h
  | cons e rest ih =>
    obtain ⟨k1, v1⟩ := e
    by_cases h1 : k = k1
    · subst h1
      simp only [List.lookup, beq_self_eq_true, Option.some.injEq] at h
      subst h
      exact List.mem_cons_self _ _
    · have h2 : (k == k1) = false := by simpa using h1
      simp only [List.lookup, h2] at h
      exact List.mem_cons_of_mem _ (ih h)

/-- What a successful `AddPeer` leaves, branch by branch. -/
theorem Node.AddPeer_cases (visit : RangeOrder) (w w1 : World) (c : Conn) (now : Int)
    (p : PeerRef) (hwf : w.WF) (h : Node.AddPeer visit w c now = .ok (w1, p)) :
    p = w.heap.length ∧ w1.heap = w.heap ++ [newPeer c now] ∧ w1.node.max = w.node.max ∧
    w1.node.peers.lookup c.remoteAddr = some p ∧
    ((∃ v, w.node.peers.lookup c.remoteAddr = some v ∧
        w1.node.peers = mapSet w.node.peers c.remoteAddr p ∧ w1.node.wg = w.node.wg) ∨
     (w.node.peers.lookup c.remoteAddr = none ∧ (w.node.peers.length : Int) = w.node.max ∧
        (∃ e ∈ w.node.peers,
          w1.node.peers = mapSet (mapDelete w.node.peers e.1) c.remoteAddr p) ∧
        w1.node.wg = w.node.wg) ∨
     (w.node.peers.lookup c.remoteAddr = none ∧ (w.node.peers.length : Int) ≠ w.node.max ∧
        w1.node.peers = mapSet w.node.peers c.remoteAddr p ∧
        w1.node.wg = w.node.wg + 1)) := by
  cases hlk : w.node.peers.lookup c.remoteAddr with
  | some v =>
    have hmem : (c.remoteAddr, v) ∈ w.node.peers := mem_of_lookup _ _ _ hlk
    obtain ⟨pv, hpv, _⟩ := hwf.valid _ hmem
    rw [Node.AddPeer_replace_eq visit w c now v pv hlk hpv] at h
    cases h
    exact ⟨rfl, rfl, rfl, lookup_mapSet_self _ _ _, Or.inl ⟨v, rfl, rfl, rfl⟩⟩
  | none =>
    by_cases hfull : (w.node.peers.length : Int) = w.node.max
    · have hv : ∀ e ∈ visit.val w.node.peers,
          ∃ pe, (w.heap ++ [newPeer c now])[e.2]? = some pe := by
        intro e he
        obtain ⟨pe, hpe, _⟩ := hwf.valid e ((visit.property w.node.peers).mem_iff.mp he)
        exact ⟨pe, heap_append_valid _ _ _ _ hpe⟩
      by_cases hne : visit.val w.node.peers = []
      · exfalso
        unfold Node.AddPeer at h
        simp only [newPeer, Peer.Key] at hlk h
        simp only [hlk, hfull, if_true, hne, scanOldest] at h
        exact Except.noConfusion h
      · obtain ⟨o, po, hscan, hpo, ⟨e, he, heo⟩, _⟩ :=
          scanOldest_none (w.heap ++ [newPeer c now]) (visit.val w.node.peers) hne hv
        have hemem : e ∈ w.node.peers := (visit.property w.node.peers).mem_iff.mp he
        obtain ⟨pe, hpe, hkey⟩ := hwf.valid e hemem
        have hpeo : po = pe := by
          have := heap_append_valid w.heap (newPeer c now) pe e.2 hpe
          rw [heo, hpo] at this
          exact Option.some.inj this
        subst hpeo
        rw [Node.AddPeer_evict_eq visit w c now o po hfull hlk hscan hpo] at h
        cases h
        refine ⟨rfl, rfl, rfl, lookup_mapSet_self _ _ _, Or.inr (Or.inl ⟨rfl, hfull, ?_, rfl⟩)⟩
        exact ⟨e, hemem, by rw [hkey]⟩
    · rw [Node.AddPeer_admit_eq visit w c now hlk hfull] at h
      unfold WaitGroup.Add at h
      by_cases hneg : w.node.wg + 1 < 0
      · simp [hneg] at h
      · simp only [hneg, if_false] at h
        cases h
        exact ⟨rfl, rfl, rfl, lookup_mapSet_self _ _ _, Or.inr (Or.inr ⟨rfl, hfull, rfl, rfl⟩)⟩

theorem Node.AddPeer_WF (visit : RangeOrder) (w w1 : World) (c : Conn) (now : Int)
    (p : PeerRef) (hwf : w.WF) (h : Node.AddPeer visit w c now = .ok (w1, p)) :
    w1.WF := by
  obtain ⟨hp, hheap, _, _, hbr⟩ := Node.AddPeer_cases visit w w1 c now p hwf h
  have hnewp : (w1.heap[p]?).map Peer.Key = some c.remoteAddr := by
    rw [hheap, hp]
    simp [newPeer, Peer.Key]
  have hold : ∀ e ∈ w.node.peers, (w1.heap[e.2]?).map Peer.Key = some e.1 := by
    intro e he
    obtain ⟨pe, hpe, hkey⟩ := hwf.valid e he
    rw [hheap, heap_append_valid _ _ _ _ hpe]
    simp [hkey]
  rcases hbr with ⟨v, hlk, hpeers, _⟩ | ⟨hlk, _, ⟨e, _, hpeers⟩, _⟩ | ⟨hlk, _, hpeers, _⟩
  · refine ⟨?_, ?_⟩
    · rw [hpeers, keys_mapSet_present _ _ _ _ hlk]
      exact hwf.1
    · intro e he
      rw [hpeers] at he
      rcases mem_mapSet _ _ _ _ he with he | he
      · rw [he]; exact hnewp
      · exact hold e he
  · have habs : (mapDelete w.node.peers e.1).lookup c.remoteAddr = none := by
      by_cases hk : c.remoteAddr = e.1
      · rw [hk]; exact lookup_mapDelete_self _ _
      · rw [lookup_mapDelete_ne _ _ _ hk]; exact hlk
    rw [mapSet_absent _ _ _ habs] at hpeers
    refine ⟨?_, ?_⟩
    · rw [hpeers, List.map_append, List.nodup_append]
      refine ⟨nodup_mapDelete _ _ hwf.1, by simp, ?_⟩
      intro a ha hb
      simp only [List.map_cons, List.map_nil, List.mem_singleton] at hb
      subst hb
      exact (lookup_eq_none_iff _ _).mp habs ha
    · intro e2 he2
      rw [hpeers] at he2
      rcases List.mem_append.mp he2 with he2 | he2
      · exact hold e2 ((mem_mapDelete _ _ _).mp he2).1
      · rw [List.mem_singleton.mp he2]; exact hnewp
  · rw [mapSet_absent _ _ _ hlk] at hpeers
    refine ⟨?_, ?_⟩
    · rw [hpeers, List.map_append, List.nodup_append]
      refine ⟨hwf.1, by simp, ?_⟩
      intro a ha hb
      simp only [List.map_cons, List.map_nil, List.mem_singleton] at hb
      subst hb
      exact (lookup_eq_none_iff _ _).mp hlk ha
    · intro e2 he2
      rw [hpeers] at he2
      rcases List.mem_append.mp he2 with he2 | he2
      · exact hold e2 he2
      · rw [List.mem_singleton.mp he2]; exact hnewp

theorem Node.AddPeer_size (visit : RangeOrder) (w w1 : World) (c : Conn) (now : Int)
    (p : PeerRef) (hwf : w.WF) (hsize : (w.node.peers.length : Int) ≤ w.node.max)
    (h : Node.AddPeer visit w c now = .ok (w1, p)) :
    (w1.node.peers.length : Int) ≤ w1.node.max := by
  obtain ⟨_, _, hmax, _, hbr⟩ := Node.AddPeer_cases visit w w1 c now p hwf h
  rw [hmax]
  rcases hbr with ⟨v, hlk, hpeers, _⟩ | ⟨hlk, hfull, ⟨e, he, hpeers⟩, _⟩ | ⟨hlk, hroom, hpeers, _⟩
  · rw [hpeers, length_mapSet_present _ _ _ _ hlk]
    exact hsize
  · have habs : (mapDelete w.node.peers e.1).lookup c.remoteAddr = none := by
      by_cases hk : c.remoteAddr = e.1
      · rw [hk]; exact lookup_mapDelete_self _ _
      · rw [lookup_mapDelete_ne _ _ _ hk]; exact hlk
    have hlen := length_mapDelete_present w.node.peers e.1 hwf.1 (List.mem_map_of_mem _ he)
    rw [hpeers, mapSet_absent _ _ _ habs]
    simp only [List.length_append, List.length_singleton]
    rw [hlen]
    exact hsize
  · rw [hpeers, mapSet_absent _ _ _ hlk]
    simp only [List.length_append, List.length_singleton]
    push_cast
    omega

theorem Node.DropPeer_cases (w w1 : World) (p : PeerRef) (h : Node.DropPeer w p = .ok w1) :
    ∃ pp, w.heap[p]? = some pp ∧ w1.heap = w.heap ∧ w1.closedConns = w.closedConns ∧
      w1.node.max = w.node.max ∧ w1.node.peers = mapDelete w.node.peers pp.Key ∧
      w1.node.wg = w.node.wg - 1 ∧ 0 ≤ w.node.wg - 1 := by
  unfold Node.DropPeer at h
  cases hp : w.heap[p]? with
  | none => simp [hp] at h
  | some pp =>
    simp only [hp, WaitGroup.Add] at h
    by_cases hneg : w.node.wg + -1 < 0
    · simp [hneg] at h
    · simp only [hneg, if_false] at h
      cases h
      exact ⟨pp, rfl, rfl, rfl, rfl, rfl, rfl, by omega⟩

theorem Node.DropPeer_WF (w w1 : World) (p : PeerRef) (hwf : w.WF)
    (h : Node.DropPeer w p = .ok w1) : w1.WF := by
  obtain ⟨pp, _, hheap, _, _, hpeers, _⟩ := Node.DropPeer_cases w w1 p h
  refine ⟨?_, ?_⟩
  · rw [hpeers]; exact nodup_mapDelete _ _ hwf.1
  · intro e he
    rw [hpeers] at he
    rw [hheap]
    exact hwf.2 e ((mem_mapDelete _ _ _).mp he).1

theorem Node.DropPeer_size (w w1 : World) (p : PeerRef)
    (hsize : (w.node.peers.length : Int) ≤ w.node.max)
    (h : Node.DropPeer w p = .ok w1) : (w1.node.peers.length : Int) ≤ w1.node.max := by
  obtain ⟨pp, _, _, _, hmax, hpeers, _⟩ := Node.DropPeer_cases w w1 p h
  rw [hmax, hpeers]
  have := length_mapDelete_le w.node.peers pp.Key
  omega

theorem runCalls_invariant (calls : List Call) : ∀ (w w1 : World), w.WF →
    (w.node.peers.length : Int) ≤ w.node.max → runCalls w calls = .ok w1 →
    w1.WF ∧ (w1.node.peers.length : Int) ≤ w1.node.max ∧ w1.node.max = w.node.max := by
  induction calls with
  | nil =>
    intro w w1 hwf hsize h
    simp only [runCalls] at h
    cases h
    exact ⟨hwf, hsize, rfl⟩
  | cons call rest ih =>
    intro w w1 hwf hsize h
    simp only [runCalls] at h
    cases hc : call.apply w with
    | error e => simp [hc] at h
    | ok w2 =>
      simp only [hc] at h
      cases call with
      | AddPeer c now visit =>
        simp only [Call.apply] at hc
        cases ha : Node.AddPeer visit w c now with
        | error e => simp [ha, Except.map] at hc
        | ok r =>
          obtain ⟨w3, p⟩ := r
          simp only [ha, Except.map, Except.ok.injEq] at hc
          subst hc
          obtain ⟨h1, h2, h3⟩ := ih w3 w1 (Node.AddPeer_WF visit w w3 c now p hwf ha)
            (Node.AddPeer_size visit w w3 c now p hwf hsize ha) h
          exact ⟨h1, h2, h3.trans (Node.AddPeer_cases visit w w3 c now p hwf ha).2.2.1⟩
      | DropPeer p =>
        simp only [Call.apply] at hc
        obtain ⟨h1, h2, h3⟩ := ih w2 w1 (Node.DropPeer_WF w w2 p hwf hc)
          (Node.DropPeer_size w w2 p hsize hc) h
        obtain ⟨_, _, _, _, hmax, _⟩ := Node.DropPeer_cases w w2 p hc
        exact ⟨h1, h2, h3.trans hmax⟩

/-- C5: for a node made by `NewNode` with `maxConns` at least 1 (which then returns), after
every sequence of `AddPeer` and `DropPeer` calls that the process survives the peer map
holds at most `max = maxConns` entries. -/
theorem runCalls_size_le_max (ID : Bytes 16) (key : PrivateKey) (maxConns : Int)
    (identities : List (String × Option PublicKey)) (hmax : 1 ≤ maxConns) :
    ∃ n : Node, NewNode ID key maxConns identities = .ok n ∧ n.max = maxConns ∧
      ∀ (calls : List Call) (w : World), runCalls (World.init n) calls = .ok w →
        w.node.max = maxConns ∧ (w.node.peers.length : Int) ≤ maxConns := by
  have hn : ¬ maxConns < 1 := by omega
  have hnew : NewNode ID key maxConns identities =
      .ok ⟨maxConns, [], 0, ID, key, identities⟩ := by
    simp only [NewNode, hn, if_false]
  refine ⟨⟨maxConns, [], 0, ID, key, identities⟩, hnew, rfl, ?_⟩
  intro calls w h
  have hwf : (World.init ⟨maxConns, [], 0, ID, key, identities⟩).WF := by
    simp [World.WF, World.init]
  obtain ⟨_, h2, h3⟩ := runCalls_invariant calls _ w hwf
    (by simp only [World.init, List.length_nil, Nat.cast_zero]; omega) h
  simp only [World.init] at h3
  rw [h3] at h2
  exact ⟨h3, h2⟩

/-! ## One pass of the handler -/

theorem PartialMessage_ok (h : Header) (hlen : 0 ≤ h.Length) :
    PartialMessage h = .ok { RawHeader := h, RawBody := List.replicate h.Length.toNat 0 } := by
  have hn : ¬ h.Length < 0 := by omega
  simp only [PartialMessage, makeBytes, hn, if_false, bind, Except.bind, pure, Except.pure]

theorem Header.Valid_nil_length (reg : DecoderRegistry) (h : Header) (hv : h.Valid reg = []) :
    1 ≤ h.Length := by
  by_contra hc
  have hlt : h.Length < 1 := by omega
  unfold Header.Valid at hv
  simp only [hlt, if_true] at hv
  exact List.append_ne_nil_of_right_ne_nil _ (List.cons_ne_nil _ _) hv

/-- What one pass does on a data frame that reaches the key lookup: stop not signalled,
both deadlines set, a header read that is no ping and has no violation, and at least
`Length` bytes arriving for the body. -/
theorem Handle.iter_data (reg : DecoderRegistry) (cr : Crypto)
    (uuidString : Bytes 16 → String) (id : Bytes 16) (p : PeerRef)
    (getKey : String → Option PublicKey) (w : World) (it : Iter) (pp : Peer) (hdr : Header)
    (hp : w.heap[p]? = some pp) (hstop : it.stop = false) (hdl : it.deadlineErr = false)
    (hhdr : it.hdr = .ok hdr) (hping : hdr.Ping = false) (hvalid : hdr.Valid reg = [])
    (hbdl : it.bodyDeadlineErr = false) (hfull : hdr.Length ≤ (it.avail.length : Int)) :
    Handle.iter reg cr uuidString id p getKey w it =
      (match getKey (uuidString hdr.Sender) with
       | none =>
         (w.setLastRecv p pp it.now,
          [.pollStop, .setHeaderDeadline, .readHeader, .setLastRecv it.now, .ping, .valid,
           .partialMessage, .setBodyDeadline, .readBody hdr.Length.toNat,
           .getKey (uuidString hdr.Sender)], .next)
       | some key =>
         match Message.Verify cr
            { RawHeader := hdr, RawBody := it.avail.take hdr.Length.toNat } key with
         | .error e =>
           (w.setLastRecv p pp it.now,
            [.pollStop, .setHeaderDeadline, .readHeader, .setLastRecv it.now, .ping, .valid,
             .partialMessage, .setBodyDeadline, .readBody hdr.Length.toNat,
             .getKey (uuidString hdr.Sender), .verify key], .panic e)
         | .ok false =>
           (w.setLastRecv p pp it.now,
            [.pollStop, .setHeaderDeadline, .readHeader, .setLastRecv it.now, .ping, .valid,
             .partialMessage, .setBodyDeadline, .readBody hdr.Length.toNat,
             .getKey (uuidString hdr.Sender), .verify key], .ret)
         | .ok true =>
           if id = hdr.Sender then
             (w.setLastRecv p pp it.now,
              [.pollStop, .setHeaderDeadline, .readHeader, .setLastRecv it.now, .ping,
               .valid, .partialMessage, .setBodyDeadline, .readBody hdr.Length.toNat,
               .getKey (uuidString hdr.Sender), .verify key], .next)
           else
             (w.setLastRecv p pp it.now,
              [.pollStop, .setHeaderDeadline, .readHeader, .setLastRecv it.now, .ping,
               .valid, .partialMessage, .setBodyDeadline, .readBody hdr.Length.toNat,
               .getKey (uuidString hdr.Sender), .verify key,
               .send { RawHeader := hdr, RawBody := it.avail.take hdr.Length.toNat }],
              .next)) := by
  have hlen := Header.Valid_nil_length reg hdr hvalid
  have hrf : readFull it.avail (List.replicate hdr.Length.toNat 0) =
      some (it.avail.take hdr.Length.toNat) := by
    have : ¬ it.avail.length < hdr.Length.toNat := by omega
    simp only [readFull, List.length_replicate, this, if_false]
  have htk : (it.avail.take hdr.Length.toNat).length = hdr.Length.toNat := by
    rw [List.length_take]; omega
  unfold Handle.iter
  simp only [hstop, hp, hdl, hhdr, hping, hvalid, hbdl, PartialMessage_ok hdr (by omega),
    hrf, htk, List.length_nil, gt_iff_lt, lt_self_iff_false, if_false, Bool.false_eq_true,
    List.cons_append, List.nil_append]

/-- A pass that sends a message went through every gate. -/
theorem Handle.iter_send (reg : DecoderRegistry) (cr : Crypto)
    (uuidString : Bytes 16 → String) (id : Bytes 16) (p : PeerRef)
    (getKey : String → Option PublicKey) (w : World) (it : Iter) (msg : Message)
    (h : Event.send msg ∈ (Handle.iter reg cr uuidString id p getKey w it).2.1) :
    ∃ (hdr : Header) (key : PublicKey),
      it.hdr = .ok hdr ∧ hdr.Ping = false ∧ hdr.Valid reg = [] ∧
      msg.RawHeader = hdr ∧ (msg.RawBody.length : Int) = hdr.Length ∧
      msg.RawBody = it.avail.take msg.RawBody.length ∧
      getKey (uuidString hdr.Sender) = some key ∧
      msg.Verify cr key = .ok true ∧ hdr.Sender ≠ id := by
  cases hstop : it.stop with
  | true => simp [Handle.iter, hstop] at h
  | false =>
  cases hp : w.heap[p]? with
  | none => simp [Handle.iter, hstop, hp] at h
  | some pp =>
  cases hdl : it.deadlineErr with
  | true => simp [Handle.iter, hstop, hp, hdl] at h
  | false =>
  cases hhdr : it.hdr with
  | error e => cases e <;> simp [Handle.iter, hstop, hp, hdl, hhdr] at h
  | ok hdr =>
  cases hping : hdr.Ping with
  | true => simp [Handle.iter, hstop, hp, hdl, hhdr, hping] at h
  | false =>
  cases hvalid : hdr.Valid reg with
  | cons e es => simp [Handle.iter, hstop, hp, hdl, hhdr, hping, hvalid] at h
  | nil =>
  have hlen := Header.Valid_nil_length reg hdr hvalid
  cases hbdl : it.bodyDeadlineErr with
  | true =>
    simp [Handle.iter, hstop, hp, hdl, hhdr, hping, hvalid, hbdl,
      PartialMessage_ok hdr (by omega)] at h
  | false =>
  by_cases hfull : hdr.Length ≤ (it.avail.length : Int)
  · rw [Handle.iter_data reg cr uuidString id p getKey w it pp hdr hp hstop hdl hhdr hping
      hvalid hbdl hfull] at h
    have htk : (it.avail.take hdr.Length.toNat).length = hdr.Length.toNat := by
      rw [List.length_take]; omega
    cases hk : getKey (uuidString hdr.Sender) with
    | none => simp [hk] at h
    | some key =>
      simp only [hk] at h
      cases hver : Message.Verify cr
          { RawHeader := hdr, RawBody := it.avail.take hdr.Length.toNat } key with
      | error e => simp [hver] at h
      | ok b =>
        cases b with
        | false => simp [hver] at h
        | true =>
          simp only [hver] at h
          by_cases hid : id = hdr.Sender
          · simp [hid] at h
          · simp only [hid, if_false, List.mem_cons, List.mem_singleton, List.mem_nil_iff,
              or_false, Event.send.injEq, false_or] at h
            simp only [reduceCtorEq, false_or] at h
            subst h
            refine ⟨hdr, key, rfl, hping, hvalid, rfl, ?_, ?_, hk, hver, fun h2 => hid h2.symm⟩
            · simp only [htk]; omega
            · simp only [htk]
  · have hrf : readFull it.avail (List.replicate hdr.Length.toNat 0) = none := by
      have : it.avail.length < hdr.Length.toNat := by omega
      simp only [readFull, List.length_replicate, this, if_true]
    simp [Handle.iter, hstop, hp, hdl, hhdr, hping, hvalid, hbdl,
      PartialMessage_ok hdr (by omega), hrf] at h

/-- No pass of the loop closes the peer or calls `drop`. -/
theorem Handle.iter_no_cleanup (reg : DecoderRegistry) (cr : Crypto)
    (uuidString : Bytes 16 → String) (id : Bytes 16) (p : PeerRef)
    (getKey : String → Option PublicKey) (w : World) (it : Iter) :
    Event.close ∉ (Handle.iter reg cr uuidString id p getKey w it).2.1 ∧
    Event.drop ∉ (Handle.iter reg cr uuidString id p getKey w it).2.1 := by
  unfold Handle.iter
  constructor <;> (repeat' split) <;> (try simp) <;> (repeat' split) <;> simp

theorem World.setLastRecv_get (w : World) (p : PeerRef) (pp : Peer) (t : Int)
    (hp : w.heap[p]? = some pp) :
    (w.setLastRecv p pp t).heap[p]? = some { pp with LastRecv := t } := by
  have hlt : p < w.heap.length := by
    by_contra hc
    rw [List.getElem?_eq_none (Nat.le_of_not_lt hc)] at hp
    exact Option.noConfusion hp
  simp [World.setLastRecv, List.getElem?_set, hlt]

/-- A pass of the loop changes nothing of the peer but `LastRecv`. -/
theorem Handle.iter_peer (reg : DecoderRegistry) (cr : Crypto)
    (uuidString : Bytes 16 → String) (id : Bytes 16) (p : PeerRef)
    (getKey : String → Option PublicKey) (w : World) (it : Iter) (pp : Peer)
    (hp : w.heap[p]? = some pp) :
    ∃ pp1, (Handle.iter reg cr uuidString id p getKey w it).1.heap[p]? = some pp1 ∧
      pp1.Conn = pp.Conn ∧ pp1.writeChan = pp.writeChan ∧ pp1.closed = pp.closed := by
  have h2 := World.setLastRecv_get w p pp it.now hp
  unfold Handle.iter
  simp only [hp]
  (repeat' split) <;>
    first
    | exact ⟨pp, hp, rfl, rfl, rfl⟩
    | exact ⟨_, h2, rfl, rfl, rfl⟩

theorem Handle.loop_peer (reg : DecoderRegistry) (cr : Crypto)
    (uuidString : Bytes 16 → String) (id : Bytes 16) (p : PeerRef)
    (getKey : String → Option PublicKey) :
    ∀ (iters : List Iter) (w : World) (pp : Peer), w.heap[p]? = some pp →
    ∃ pp1, (Handle.loop reg cr uuidString id p getKey w iters).1.heap[p]? = some pp1 ∧
      pp1.Conn = pp.Conn ∧ pp1.writeChan = pp.writeChan ∧ pp1.closed = pp.closed := by
  intro iters
  induction iters with
  | nil => intro w pp hp; exact ⟨pp, hp, rfl, rfl, rfl⟩
  | cons it rest ih =>
    intro w pp hp
    obtain ⟨pa, hpa, ha1, ha2, ha3⟩ := Handle.iter_peer reg cr uuidString id p getKey w it pp hp
    rcases hit : Handle.iter reg cr uuidString id p getKey w it with ⟨wa, tra, fl⟩
    rw [hit] at hpa
    cases fl with
    | next =>
      obtain ⟨pb, hpb, hb1, hb2, hb3⟩ := ih wa pa hpa
      simp only [Handle.loop, hit]
      exact ⟨pb, hpb, hb1.trans ha1, hb2.trans ha2, hb3.trans ha3⟩
    | ret =>
      simp only [Handle.loop, hit]
      exact ⟨pa, hpa, ha1, ha2, ha3⟩
    | panic e =>
      simp only [Handle.loop, hit]
      exact ⟨pa, hpa, ha1, ha2, ha3⟩

/-! ## The handler -/

theorem Handle.loop_append (reg : DecoderRegistry) (cr : Crypto)
    (uuidString : Bytes 16 → String) (id : Bytes 16) (p : PeerRef)
    (getKey : String → Option PublicKey) (rest : List Iter) :
    ∀ (pre : List Iter) (w w1 : World) (tr0 : List Event),
    Handle.loop reg cr uuidString id p getKey w pre = (w1, tr0, .next) →
    Handle.loop reg cr uuidString id p getKey w (pre ++ rest) =
      ((Handle.loop reg cr uuidString id p getKey w1 rest).1,
       tr0 ++ (Handle.loop reg cr uuidString id p getKey w1 rest).2.1,
       (Handle.loop reg cr uuidString id p getKey w1 rest).2.2) := by
  intro pre
  induction pre with
  | nil =>
    intro w w1 tr0 h
    simp only [Handle.loop, Prod.mk.injEq] at h
    obtain ⟨h1, h2, _⟩ := h
    subst h1 h2
    simp
  | cons it pre1 ih =>
    intro w w1 tr0 h
    rcases hit : Handle.iter reg cr uuidString id p getKey w it with ⟨wa, tra, fl⟩
    cases fl with
    | next =>
      simp only [Handle.loop, hit, Prod.mk.injEq] at h
      obtain ⟨h1, h2, h3⟩ := h
      rcases hl : Handle.loop reg cr uuidString id p getKey wa pre1 with ⟨wb, trb, flb⟩
      rw [hl] at h1 h2 h3
      simp only at h1 h2 h3
      subst h1 h2 h3
      have hih := ih wa wb trb hl
      show Handle.loop reg cr uuidString id p getKey w (it :: (pre1 ++ rest)) = _
      simp only [Handle.loop, hit, hih, List.append_assoc]
    | ret => simp [Handle.loop, hit] at h
    | panic e => simp [Handle.loop, hit] at h

theorem Handle.loop_mem (reg : DecoderRegistry) (cr : Crypto)
    (uuidString : Bytes 16 → String) (id : Bytes 16) (p : PeerRef)
    (getKey : String → Option PublicKey) (e : Event) :
    ∀ (iters : List Iter) (w : World),
    e ∈ (Handle.loop reg cr uuidString id p getKey w iters).2.1 →
    ∃ it ∈ iters, ∃ wa, e ∈ (Handle.iter reg cr uuidString id p getKey wa it).2.1 := by
  intro iters
  induction iters with
  | nil => intro w h; simp [Handle.loop] at h
  | cons it rest ih =>
    intro w h
    rcases hit : Handle.iter reg cr uuidString id p getKey w it with ⟨wa, tra, fl⟩
    cases fl with
    | next =>
      simp only [Handle.loop, hit, List.mem_append] at h
      rcases h with h | h
      · exact ⟨it, List.mem_cons_self _ _, w, by rw [hit]; exact h⟩
      · obtain ⟨it2, hmem, wb, hb⟩ := ih wa h
        exact ⟨it2, List.mem_cons_of_mem _ hmem, wb, hb⟩
    | ret =>
      simp only [Handle.loop, hit] at h
      exact ⟨it, List.mem_cons_self _ _, w, by rw [hit]; exact h⟩
    | panic msg =>
      simp only [Handle.loop, hit] at h
      exact ⟨it, List.mem_cons_self _ _, w, by rw [hit]; exact h⟩

theorem Handle.cleanup_trace (p : PeerRef) (drop : World → PeerRef → Except String World)
    (w : World) (tr : List Event) (st : Status) :
    (Handle.cleanup p drop w tr st).trace = tr ++ [.close] ∨
    (Handle.cleanup p drop w tr st).trace = tr ++ [.close, .drop] := by
  unfold Handle.cleanup
  cases Peer.Close w p with
  | error e => exact Or.inl rfl
  | ok r =>
    obtain ⟨w1, err⟩ := r
    simp only
    cases drop w1 p with
    | error e => exact Or.inr rfl
    | ok w2 => exact Or.inr rfl

theorem Handle.trace_mem (reg : DecoderRegistry) (cr : Crypto)
    (uuidString : Bytes 16 → String) (id : Bytes 16) (p : PeerRef)
    (drop : World → PeerRef → Except String World)
    (getKey : String → Option PublicKey) (w : World) (iters : List Iter) (e : Event)
    (h : e ∈ (Handle reg cr uuidString id p drop getKey w iters).trace) :
    e ∈ (Handle.loop reg cr uuidString id p getKey w iters).2.1 ∨ e = .close ∨ e = .drop := by
  unfold Handle at h
  rcases hl : Handle.loop reg cr uuidString id p getKey w iters with ⟨w1, tr, fl⟩
  rw [hl] at h
  cases fl with
  | next => exact Or.inl h
  | ret =>
    simp only at h
    rcases Handle.cleanup_trace p drop w1 tr .returned with hc | hc <;>
      (rw [hc] at h; simp only [List.mem_append, List.mem_cons, List.mem_singleton,
        List.mem_nil_iff, or_false] at h; tauto)
  | panic msg =>
    simp only at h
    rcases Handle.cleanup_trace p drop w1 tr (.panicked msg) with hc | hc <;>
      (rw [hc] at h; simp only [List.mem_append, List.mem_cons, List.mem_singleton,
        List.mem_nil_iff, or_false] at h; tauto)

/-- C7: whenever `Handle` sends a message on the delivery channel, one of the frames it
processed had a header that is no ping and has no violation, the message is that header
with a body of exactly `Length` bytes taken from the connection, `getKey` returned a key
for the sender identity, `Verify` returned true for that key, and the sender is not the
local identity. -/
theorem Handle_send_only_if (reg : DecoderRegistry) (cr : Crypto)
    (uuidString : Bytes 16 → String) (id : Bytes 16) (p : PeerRef)
    (drop : World → PeerRef → Except String World)
    (getKey : String → Option PublicKey) (w : World) (iters : List Iter) (msg : Message)
    (h : Event.send msg ∈ (Handle reg cr uuidString id p drop getKey w iters).trace) :
    ∃ it ∈ iters, ∃ (hdr : Header) (key : PublicKey),
      it.hdr = .ok hdr ∧ hdr.Ping = false ∧ hdr.Valid reg = [] ∧
      msg.RawHeader = hdr ∧ (msg.RawBody.length : Int) = hdr.Length ∧
      msg.RawBody = it.avail.take msg.RawBody.length ∧
      getKey (uuidString hdr.Sender) = some key ∧
      msg.Verify cr key = .ok true ∧ hdr.Sender ≠ id := by
  rcases Handle.trace_mem reg cr uuidString id p drop getKey w iters _ h with h1 | h1 | h1
  · obtain ⟨it, hmem, wa, ha⟩ := Handle.loop_mem reg cr uuidString id p getKey _ iters w h1
    exact ⟨it, hmem, Handle.iter_send reg cr uuidString id p getKey wa it msg ha⟩
  · exact Event.noConfusion h1
  · exact Event.noConfusion h1

theorem Handle.cleanup_append (p : PeerRef) (drop : World → PeerRef → Except String World)
    (w : World) (a tr : List Event) (st : Status) :
    Handle.cleanup p drop w (a ++ tr) st =
      { world := (Handle.cleanup p drop w tr st).world,
        trace := a ++ (Handle.cleanup p drop w tr st).trace,
        status := (Handle.cleanup p drop w tr st).status } := by
  unfold Handle.cleanup
  cases Peer.Close w p with
  | error e => simp
  | ok r =>
    obtain ⟨w1, err⟩ := r
    simp only
    cases drop w1 p with
    | error e => simp
    | ok w2 => simp

theorem Handle_after_passes (reg : DecoderRegistry) (cr : Crypto)
    (uuidString : Bytes 16 → String) (id : Bytes 16) (p : PeerRef)
    (drop : World → PeerRef → Except String World)
    (getKey : String → Option PublicKey) (w w1 : World) (pre rest : List Iter)
    (tr0 : List Event)
    (hpre : Handle.loop reg cr uuidString id p getKey w pre = (w1, tr0, .next)) :
    Handle reg cr uuidString id p drop getKey w (pre ++ rest) =
      { world := (Handle reg cr uuidString id p drop getKey w1 rest).world,
        trace := tr0 ++ (Handle reg cr uuidString id p drop getKey w1 rest).trace,
        status := (Handle reg cr uuidString id p drop getKey w1 rest).status } := by
  unfold Handle
  rw [Handle.loop_append reg cr uuidString id p getKey rest pre w w1 tr0 hpre]
  rcases Handle.loop reg cr uuidString id p getKey w1 rest with ⟨w2, tr, fl⟩
  cases fl with
  | next => rfl
  | ret => exact Handle.cleanup_append p drop w2 tr0 tr _
  | panic e => exact Handle.cleanup_append p drop w2 tr0 tr _

theorem Handle.loop_no_cleanup (reg : DecoderRegistry) (cr : Crypto)
    (uuidString : Bytes 16 → String) (id : Bytes 16) (p : PeerRef)
    (getKey : String → Option PublicKey) (w : World) (iters : List Iter) :
    Event.close ∉ (Handle.loop reg cr uuidString id p getKey w iters).2.1 ∧
    Event.drop ∉ (Handle.loop reg cr uuidString id p getKey w iters).2.1 := by
  constructor
  · intro h
    obtain ⟨it, _, wa, ha⟩ := Handle.loop_mem reg cr uuidString id p getKey _ iters w h
    exact (Handle.iter_no_cleanup reg cr uuidString id p getKey wa it).1 ha
  · intro h
    obtain ⟨it, _, wa, ha⟩ := Handle.loop_mem reg cr uuidString id p getKey _ iters w h
    exact (Handle.iter_no_cleanup reg cr uuidString id p getKey wa it).2 ha

theorem Peer.Close_open (w : World) (p : PeerRef) (pp : Peer) (hp : w.heap[p]? = some pp)
    (hclosed : pp.closed = false) (hopen : pp.writeChan.closed = false) :
    ∃ err, Peer.Close w p = .ok
      ({ heap := w.heap.set p { pp with writeChan := { pp.writeChan with closed := true } },
         closedConns := closeLog w.closedConns pp.Conn, node := w.node }, err) := by
  have hc : ∀ (w2 : World) (c : Gophernet.Conn), Gophernet.Conn.Close w2 c =
      ({ w2 with closedConns := closeLog w2.closedConns c },
        (Gophernet.Conn.Close w2 c).2) :=
    fun w2 c => by rw [← Gophernet.Conn.Close_fst]
  unfold Peer.Close
  simp only [hp, hclosed, hopen, Bool.false_eq_true, if_false]
  rw [hc]
  exact ⟨_, rfl⟩

/-- C8: a data frame (header read, no ping, no violation, body read in full) whose
sender has no key makes the pass end with `continue`: the events of the pass are the
ten listed, with no send, no close and no drop; the handler goes on with the next
frame exactly as a handler started on the remaining frames would; and if no frame
follows it is still running. `pre` are the passes before the frame, none of which
ended the loop. -/
theorem Handle_unknown_sender (reg : DecoderRegistry) (cr : Crypto)
    (uuidString : Bytes 16 → String) (id : Bytes 16) (p : PeerRef)
    (drop : World → PeerRef → Except String World)
    (getKey : String → Option PublicKey) (w w1 : World) (pre rest : List Iter)
    (tr0 : List Event) (it : Iter) (pp : Peer) (hdr : Header)
    (hp : w.heap[p]? = some pp)
    (hpre : Handle.loop reg cr uuidString id p getKey w pre = (w1, tr0, .next))
    (hstop : it.stop = false) (hdl : it.deadlineErr = false)
    (hhdr : it.hdr = .ok hdr) (hping : hdr.Ping = false) (hvalid : hdr.Valid reg = [])
    (hbdl : it.bodyDeadlineErr = false) (hfull : hdr.Length ≤ (it.avail.length : Int))
    (hkey : getKey (uuidString hdr.Sender) = none) :
    ∃ pp1 : Peer, w1.heap[p]? = some pp1 ∧
    Handle.iter reg cr uuidString id p getKey w1 it =
      (w1.setLastRecv p pp1 it.now,
       [.pollStop, .setHeaderDeadline, .readHeader, .setLastRecv it.now, .ping, .valid,
        .partialMessage, .setBodyDeadline, .readBody hdr.Length.toNat,
        .getKey (uuidString hdr.Sender)], .next) ∧
    Handle reg cr uuidString id p drop getKey w (pre ++ it :: rest) =
      { world := (Handle reg cr uuidString id p drop getKey
          (w1.setLastRecv p pp1 it.now) rest).world,
        trace := tr0 ++ [.pollStop, .setHeaderDeadline, .readHeader, .setLastRecv it.now,
          .ping, .valid, .partialMessage, .setBodyDeadline, .readBody hdr.Length.toNat,
          .getKey (uuidString hdr.Sender)] ++
          (Handle reg cr uuidString id p drop getKey (w1.setLastRecv p pp1 it.now) rest).trace,
        status := (Handle reg cr uuidString id p drop getKey
          (w1.setLastRecv p pp1 it.now) rest).status } ∧
    (Handle reg cr uuidString id p drop getKey w (pre ++ [it])).status = .running := by
  obtain ⟨pp1, hp1, _⟩ := Handle.loop_peer reg cr uuidString id p getKey pre w pp hp
  rw [hpre] at hp1
  simp only at hp1
  have hit := Handle.iter_data reg cr uuidString id p getKey w1 it pp1 hdr hp1 hstop hdl
    hhdr hping hvalid hbdl hfull
  simp only [hkey] at hit
  have hl1 : Handle.loop reg cr uuidString id p getKey w1 [it] =
      (w1.setLastRecv p pp1 it.now,
       [.pollStop, .setHeaderDeadline, .readHeader, .setLastRecv it.now, .ping, .valid,
        .partialMessage, .setBodyDeadline, .readBody hdr.Length.toNat,
        .getKey (uuidString hdr.Sender)], .next) := by
    simp only [Handle.loop, hit, List.append_nil]
  have hl2 := Handle.loop_append reg cr uuidString id p getKey [it] pre w w1 tr0 hpre
  rw [hl1] at hl2
  simp only at hl2
  refine ⟨pp1, hp1, hit, ?_, ?_⟩
  · have h3 := Handle_after_passes reg cr uuidString id p drop getKey w _ (pre ++ [it]) rest _ hl2
    simp only [List.append_assoc, List.singleton_append] at h3
    rw [h3]
    simp only [List.append_assoc]
  · unfold Handle
    rw [hl2]

/-- The verification failure on a peer whose outbound queue is still open, as `AddPeer`
returns it: a data frame (header read, no ping, no violation, body read in full) whose
sender has a key and whose `Verify` returns false ends the loop with `return`, whatever
the local identity is: the events of the pass are the eleven listed, with no send; the
deferred cleanup then runs, once: `p.Close()` closes the outbound queue and the
connection, and `drop(p)` is called on the world that leaves; the handler ends
`returned` with the world of `drop`, or with the panic of `drop`. -/
theorem Handle_verify_failure (reg : DecoderRegistry) (cr : Crypto)
    (uuidString : Bytes 16 → String) (id : Bytes 16) (p : PeerRef)
    (drop : World → PeerRef → Except String World)
    (getKey : String → Option PublicKey) (w w1 : World) (pre rest : List Iter)
    (tr0 : List Event) (it : Iter) (pp : Peer) (hdr : Header) (key : PublicKey)
    (hp : w.heap[p]? = some pp) (hclosed : pp.closed = false)
    (hopen : pp.writeChan.closed = false)
    (hpre : Handle.loop reg cr uuidString id p getKey w pre = (w1, tr0, .next))
    (hstop : it.stop = false) (hdl : it.deadlineErr = false)
    (hhdr : it.hdr = .ok hdr) (hping : hdr.Ping = false) (hvalid : hdr.Valid reg = [])
    (hbdl : it.bodyDeadlineErr = false) (hfull : hdr.Length ≤ (it.avail.length : Int))
    (hkey : getKey (uuidString hdr.Sender) = some key)
    (hver : Message.Verify cr
      { RawHeader := hdr, RawBody := it.avail.take hdr.Length.toNat } key = .ok false) :
    ∃ (pp1 : Peer) (wc : World) (err : Option Errno),
      w1.heap[p]? = some pp1 ∧
      Peer.Close (w1.setLastRecv p pp1 it.now) p = .ok (wc, err) ∧
      (wc.heap[p]?).map (fun q => q.writeChan.closed) = some true ∧
      pp.Conn.id ∈ wc.closedConns ∧
      Handle reg cr uuidString id p drop getKey w (pre ++ it :: rest) =
        { world := (match drop wc p with
            | .ok w3 => w3
            | .error _ => wc),
          trace := tr0 ++ [.pollStop, .setHeaderDeadline, .readHeader, .setLastRecv it.now,
            .ping, .valid, .partialMessage, .setBodyDeadline, .readBody hdr.Length.toNat,
            .getKey (uuidString hdr.Sender), .verify key] ++ [.close, .drop],
          status := (match drop wc p with
            | .ok _ => .returned
            | .error e => .panicked e) } ∧
      (Handle reg cr uuidString id p drop getKey w (pre ++ it :: rest)).trace.count .close
        = 1 ∧
      (Handle reg cr uuidString id p drop getKey w (pre ++ it :: rest)).trace.count .drop
        = 1 := by
  obtain ⟨pp1, hp1, hc1, hc2, hc3⟩ :=
    Handle.loop_peer reg cr uuidString id p getKey pre w pp hp
  rw [hpre] at hp1
  simp only at hp1
  rw [← hc3] at hclosed
  rw [← hc2] at hopen
  rw [← hc1]
  clear hp hc1 hc2 hc3
  have hit := Handle.iter_data reg cr uuidString id p getKey w1 it pp1 hdr hp1 hstop hdl
    hhdr hping hvalid hbdl hfull
  simp only [hkey, hver] at hit
  have hlt : p < w1.heap.length := by
    by_contra hc
    rw [List.getElem?_eq_none (Nat.le_of_not_lt hc)] at hp1
    exact Option.noConfusion hp1
  have hp2 := World.setLastRecv_get w1 p pp1 it.now hp1
  obtain ⟨wc, err, hclose, hwc1, hwc2⟩ : ∃ (wc : World) (err : Option Errno),
      Peer.Close (w1.setLastRecv p pp1 it.now) p = .ok (wc, err) ∧
      (wc.heap[p]?).map (fun q => q.writeChan.closed) = some true ∧
      pp1.Conn.id ∈ wc.closedConns := by
    obtain ⟨err, hclose⟩ := Peer.Close_open (w1.setLastRecv p pp1 it.now) p
      { pp1 with LastRecv := it.now } hp2 hclosed hopen
    refine ⟨_, err, hclose, ?_, ?_⟩
    · simp [World.setLastRecv, List.getElem?_set, hlt]
    · exact (mem_closeLog _ _ _).mpr (Or.inr rfl)
  have hH : Handle reg cr uuidString id p drop getKey w (pre ++ it :: rest) = _ :=
    Handle_after_passes reg cr uuidString id p drop getKey w w1 pre (it :: rest) tr0 hpre
  have hH1 : Handle reg cr uuidString id p drop getKey w1 (it :: rest) =
      Handle.cleanup p drop (w1.setLastRecv p pp1 it.now)
        [.pollStop, .setHeaderDeadline, .readHeader, .setLastRecv it.now,
         .ping, .valid, .partialMessage, .setBodyDeadline, .readBody hdr.Length.toNat,
         .getKey (uuidString hdr.Sender), .verify key] .returned := by
    simp only [Handle, Handle.loop, hit]
  have hnc := Handle.loop_no_cleanup reg cr uuidString id p getKey w pre
  rw [hpre] at hnc
  simp only at hnc
  have hfinal : Handle reg cr uuidString id p drop getKey w (pre ++ it :: rest) =
        { world := (match drop wc p with
            | .ok w3 => w3
            | .error _ => wc),
          trace := tr0 ++ [.pollStop, .setHeaderDeadline, .readHeader, .setLastRecv it.now,
            .ping, .valid, .partialMessage, .setBodyDeadline, .readBody hdr.Length.toNat,
            .getKey (uuidString hdr.Sender), .verify key] ++ [.close, .drop],
          status := (match drop wc p with
            | .ok _ => .returned
            | .error e => .panicked e) } := by
    rw [hH, hH1]
    unfold Handle.cleanup
    rw [hclose]
    simp only
    cases drop wc p with
    | error e => simp
    | ok w3 => simp
  refine ⟨pp1, wc, err, hp1, hclose, hwc1, hwc2, hfinal, ?_, ?_⟩
  · rw [hfinal]
    simp [List.count_append, List.count_eq_zero.mpr hnc.1, List.count_cons]
  · rw [hfinal]
    simp [List.count_append, List.count_eq_zero.mpr hnc.2, List.count_cons]

/-! ## The theorems at concrete inputs -/

/-- C2: closing a freshly made peer twice: the first `Close` returns nil and leaves the
field `closed` false, so the second `Close` does not return `EINVAL` but reaches
`close(p.writeChan)` again and panics on the closed channel. -/
theorem Peer.Close_twice_panics :
    ∃ w1 : World, Peer.Close exampleFresh 0 = .ok (w1, none) ∧
      (w1.heap[0]?).map (fun q => (q.closed, q.writeChan.closed)) = some (false, true) ∧
      Peer.Close w1 0 = .error "close of closed channel" :=
  ⟨_, rfl, rfl, rfl⟩

/-- C3: with `max = 1`, two sequences in which `DropPeer` is called once for each peer
that `AddPeer` returned drive the counter below zero. Reconnect: the second `AddPeer`
replaces the entry without `wg.Add(1)`, the counter is 1, 1, 0 after the first three
calls and the second `DropPeer` panics. Eviction: the same with a second connection
from another endpoint. -/
theorem runCalls_counter_negative :
    NewNode exampleID exampleKey 1 [] = .ok exampleNode1 ∧
    (runCalls (World.init exampleNode1)
      [.AddPeer connA 10 inOrder, .AddPeer connA2 11 inOrder, .DropPeer 0]).map
        (fun w => w.node.wg) = .ok 0 ∧
    runCalls (World.init exampleNode1)
      [.AddPeer connA 10 inOrder, .AddPeer connA2 11 inOrder, .DropPeer 0, .DropPeer 1] =
        .error "sync: negative WaitGroup counter" ∧
    (runCalls (World.init exampleNode1)
      [.AddPeer connA 10 inOrder, .AddPeer connB 11 inOrder, .DropPeer 0]).map
        (fun w => w.node.wg) = .ok 0 ∧
    runCalls (World.init exampleNode1)
      [.AddPeer connA 10 inOrder, .AddPeer connB 11 inOrder, .DropPeer 0, .DropPeer 1] =
        .error "sync: negative WaitGroup counter" :=
  ⟨rfl, rfl, rfl, rfl, rfl⟩

theorem Header.Valid_violations_witness :
    exampleHeader.Valid [0] = [] ∧
    ({ exampleHeader with Magic := 0, Length := 0 } : Header).Valid [0] =
      [.invalidMagic 0, .nonPositiveLength 0] := by
  have h1 := (Header.Valid_violations [0] exampleHeader).1
  exact ⟨h1.mpr (by decide), rfl⟩

theorem Node.AddPeer_evicts_oldest_witness :
    ∃ (w1 : World) (victim : String × PeerRef) (pv : Peer),
      Node.AddPeer inOrder exampleFull connC 12 = .ok (w1, 2) ∧
      victim ∈ exampleFull.node.peers ∧ exampleFull.heap[victim.2]? = some pv ∧
      (∀ e ∈ exampleFull.node.peers, ∀ pe, exampleFull.heap[e.2]? = some pe →
        pv.LastRecv ≤ pe.LastRecv) := by
  obtain ⟨w1, victim, pv, h1, h2, h3, h4, _⟩ :=
    Node.AddPeer_evicts_oldest inOrder exampleFull connC 12
      (by decide) (by decide) (by decide) (by decide)
  exact ⟨w1, victim, pv, h1, h2, h3, h4⟩

theorem runCalls_size_le_max_witness :
    ∃ n : Node, NewNode exampleID exampleKey 1 [] = .ok n ∧ n.max = 1 ∧
      ∀ (calls : List Call) (w : World), runCalls (World.init n) calls = .ok w →
        w.node.max = 1 ∧ (w.node.peers.length : Int) ≤ 1 :=
  runCalls_size_le_max exampleID exampleKey 1 [] (by decide)

theorem Node.AddPeer_reconnect_witness :
    ∃ w1 : World, Node.AddPeer inOrder exampleFull connA2 12 = .ok (w1, 2) ∧
      0 ∈ w1.closedConns ∧ w1.node.peers.lookup "a" = some 2 ∧
      w1.node.peers.length = 2 ∧ w1.node.wg = 2 := by
  obtain ⟨w1, h1, h2, _, h4, _, h6, h7, _⟩ :=
    Node.AddPeer_reconnect inOrder exampleFull connA2 12 0 (newPeer connA 10) rfl rfl
  exact ⟨w1, h1, h2, h4, h6, h7⟩

theorem Handle_send_only_if_witness :
    ∃ it ∈ [exampleIter], ∃ (hdr : Header) (key : PublicKey),
      it.hdr = .ok hdr ∧ hdr.Ping = false ∧ hdr.Valid [0] = [] ∧
      exampleMessage.RawHeader = hdr ∧ (exampleMessage.RawBody.length : Int) = hdr.Length ∧
      exampleMessage.RawBody = it.avail.take exampleMessage.RawBody.length ∧
      (fun _ => some exampleKey.pub) (exampleUUIDString hdr.Sender) = some key ∧
      exampleMessage.Verify exampleCrypto key = .ok true ∧ hdr.Sender ≠ exampleID :=
  Handle_send_only_if [0] exampleCrypto exampleUUIDString exampleID 0 Node.DropPeer
    (fun _ => some exampleKey.pub) exampleFresh [exampleIter] exampleMessage (by decide)

theorem Handle_unknown_sender_witness :
    (Handle [0] exampleCrypto exampleUUIDString exampleID 0 Node.DropPeer
      (fun _ => none) exampleFresh ([] ++ [exampleIter])).status = .running :=
  (Handle_unknown_sender [0] exampleCrypto exampleUUIDString exampleID 0 Node.DropPeer
    (fun _ => none) exampleFresh exampleFresh [] [] [] exampleIter (newPeer connA 0)
    exampleHeader rfl rfl rfl rfl rfl rfl rfl rfl (by decide) rfl).choose_spec.2.2.2

theorem Handle_verify_failure_witness :
    (Handle [0] exampleCrypto exampleUUIDString exampleHeader.Sender 0 Node.DropPeer
      (fun _ => some { X := 5, Y := 5 }) exampleFresh ([] ++ exampleIter :: [])).trace.count
        .drop = 1 := by
  obtain ⟨pp1, wc, err, _, _, _, _, _, _, h⟩ :=
    Handle_verify_failure [0] exampleCrypto exampleUUIDString exampleHeader.Sender 0
      Node.DropPeer (fun _ => some { X := 5, Y := 5 }) exampleFresh exampleFresh [] []
      [] exampleIter (newPeer connA 0) exampleHeader { X := 5, Y := 5 } rfl rfl rfl rfl
      rfl rfl rfl rfl rfl rfl (by decide) rfl rfl
  exact h

theorem Message.Verify_signed_bytes_witness :
    (exampleMessage.RawBody.length : Int) = exampleMessage.RawHeader.Length ∧
    exampleMessage.signedPart =
      .ok [1, 1, 1, 1, 1, 1, 1, 1, 1, 1, 1, 1, 1, 1, 1, 1, 0, 0, 0, 0, 2, 7, 8] :=
  ⟨by decide, (Message.Verify_signed_bytes exampleMessage (by decide)).1⟩

/-! ## Ping classification, construction, the wire size -/

/-- C11: `Header.Ping` is true exactly when the magic byte is `'g'`, the version is 0 and
the hops count is 0; so it is true for every header with these three values, whatever
its signature, sender, encoding and length are. -/
theorem Header.Ping_iff (h : Header) :
    (h.Ping = true ↔ (h.Magic = MagicByte ∧ h.Version = 0 ∧ h.Hops = 0)) ∧
    (∀ (sig : P256Sig) (sender : Bytes 16) (encoding length : Int),
      Header.Ping { Magic := MagicByte, Version := 0, Hops := 0, Sig := sig,
                    Sender := sender, Encoding := encoding, Length := length } = true) := by
  constructor
  · simp [Header.Ping, and_assoc]
  · intro sig sender encoding length
    simp [Header.Ping]

/-- C14: `NewNode` panics exactly when `maxConns < 1`; for `maxConns` at least 1 it
returns the node with `max = maxConns`, an empty peer map, the supplied identity table
and a zero counter. -/
theorem NewNode_panics_iff (ID : Bytes 16) (key : PrivateKey) (maxConns : Int)
    (identities : List (String × Option PublicKey)) :
    ((∃ e, NewNode ID key maxConns identities = .error e) ↔ maxConns < 1) ∧
    (1 ≤ maxConns →
      ∃ n : Node, NewNode ID key maxConns identities = .ok n ∧ n.max = maxConns ∧
        n.peers = [] ∧ n.identities = identities ∧ n.wg = 0 ∧ n.ID = ID ∧ n.key = key) := by
  unfold NewNode
  by_cases h : maxConns < 1
  · simp only [h, if_true]
    exact ⟨⟨fun _ => trivial, fun _ => ⟨_, rfl⟩⟩, fun h1 => absurd h (by omega)⟩
  · simp only [h, if_false]
    refine ⟨⟨fun ⟨e, he⟩ => Except.noConfusion he, fun h1 => h1.elim⟩, fun _ => ?_⟩
    exact ⟨_, rfl, rfl, rfl, rfl, rfl, rfl, rfl⟩

theorem takeBytes_some (n : Nat) (bs : List Nat) (x : Bytes n) (rest : List Nat)
    (h : takeBytes n bs = some (x, rest)) :
    n ≤ bs.length ∧ x.val = bs.take n ∧ rest = bs.drop n := by
  unfold takeBytes at h
  by_cases hn : n ≤ bs.length
  · simp only [hn, dite_true, Option.some.injEq, Prod.mk.injEq] at h
    exact ⟨hn, by rw [← h.1], h.2.symm⟩
  · simp [hn] at h

theorem takeBytes_none (n : Nat) (bs : List Nat) (h : takeBytes n bs = none) :
    bs.length < n := by
  unfold takeBytes at h
  by_cases hn : n ≤ bs.length
  · simp [hn] at h
  · omega

theorem Header.decode_spec (buf : List Nat) :
    (88 ≤ buf.length ∧ ∃ h, Header.decode buf = some (h, buf.drop 88)) ∨
    (buf.length < 88 ∧ Header.decode buf = none) := by
  unfold Header.decode
  cases h1 : takeBytes 1 buf with
  | none =>
    have hlt := takeBytes_none _ _ h1
    try simp only [List.length_drop] at hlt
    exact Or.inr ⟨by omega, rfl⟩
  | some x1 =>
  obtain ⟨magic, b1⟩ := x1
  obtain ⟨l1, _, e1⟩ := takeBytes_some _ _ _ _ h1
  subst e1
  try simp only [List.length_drop] at l1
  try simp only [List.drop_drop]
  cases h2 : takeBytes 1 (buf.drop 1) with
  | none =>
    have hlt := takeBytes_none _ _ h2
    try simp only [List.length_drop] at hlt
    exact Or.inr ⟨by omega, rfl⟩
  | some x2 =>
  obtain ⟨version, b2⟩ := x2
  obtain ⟨l2, _, e2⟩ := takeBytes_some _ _ _ _ h2
  subst e2
  try simp only [List.length_drop] at l2
  try simp only [List.drop_drop]
  cases h3 : takeBytes 1 (buf.drop (1 + 1)) with
  | none =>
    have hlt := takeBytes_none _ _ h3
    try simp only [List.length_drop] at hlt
    exact Or.inr ⟨by omega, rfl⟩
  | some x3 =>
  obtain ⟨hops, b3⟩ := x3
  obtain ⟨l3, _, e3⟩ := takeBytes_some _ _ _ _ h3
  subst e3
  try simp only [List.length_drop] at l3
  try simp only [List.drop_drop]
  cases h4 : takeBytes 32 (buf.drop (1 + (1 + 1))) with
  | none =>
    have hlt := takeBytes_none _ _ h4
    try simp only [List.length_drop] at hlt
    exact Or.inr ⟨by omega, rfl⟩
  | some x4 =>
  obtain ⟨r, b4⟩ := x4
  obtain ⟨l4, _, e4⟩ := takeBytes_some _ _ _ _ h4
  subst e4
  try simp only [List.length_drop] at l4
  try simp only [List.drop_drop]
  cases h5 : takeBytes 32 (buf.drop (1 + (1 + (1 + 32)))) with
  | none =>
    have hlt := takeBytes_none _ _ h5
    try simp only [List.length_drop] at hlt
    exact Or.inr ⟨by omega, rfl⟩
  | some x5 =>
  obtain ⟨s, b5⟩ := x5
  obtain ⟨l5, _, e5⟩ := takeBytes_some _ _ _ _ h5
  subst e5
  try simp only [List.length_drop] at l5
  try simp only [List.drop_drop]
  cases h6 : takeBytes 16 (buf.drop (1 + (1 + (1 + (32 + 32))))) with
  | none =>
    have hlt := takeBytes_none _ _ h6
    try simp only [List.length_drop] at hlt
    exact Or.inr ⟨by omega, rfl⟩
  | some x6 =>
  obtain ⟨sender, b6⟩ := x6
  obtain ⟨l6, _, e6⟩ := takeBytes_some _ _ _ _ h6
  subst e6
  try simp only [List.length_drop] at l6
  try simp only [List.drop_drop]
  cases h7 : takeBytes 1 (buf.drop (1 + (1 + (1 + (32 + (32 + 16)))))) with
  | none =>
    have hlt := takeBytes_none _ _ h7
    try simp only [List.length_drop] at hlt
    exact Or.inr ⟨by omega, rfl⟩
  | some x7 =>
  obtain ⟨encoding, b7⟩ := x7
  obtain ⟨l7, _, e7⟩ := takeBytes_some _ _ _ _ h7
  subst e7
  try simp only [List.length_drop] at l7
  try simp only [List.drop_drop]
  cases h8 : takeBytes 4 (buf.drop (1 + (1 + (1 + (32 + (32 + (16 + 1))))))) with
  | none =>
    have hlt := takeBytes_none _ _ h8
    try simp only [List.length_drop] at hlt
    exact Or.inr ⟨by omega, rfl⟩
  | some x8 =>
  obtain ⟨length, b8⟩ := x8
  obtain ⟨l8, _, e8⟩ := takeBytes_some _ _ _ _ h8
  subst e8
  try simp only [List.length_drop] at l8
  try simp only [List.drop_drop]
  have e88 : 1 + (1 + (1 + (32 + (32 + (16 + (1 + 4)))))) = 88 := by norm_num
  rw [e88]
  exact Or.inl ⟨by omega, _, rfl⟩

theorem Header.read_spec (avail : List Nat) :
    (88 ≤ avail.length → ∃ h, Header.read avail = some (h, avail.drop 88)) ∧
    (avail.length < 88 → Header.read avail = none) := by
  have hsize : Header.binarySize = 88 := rfl
  unfold Header.read
  constructor
  · intro hlen
    cases h1 : takeBytes Header.binarySize avail with
    | none =>
      have := takeBytes_none _ _ h1
      omega
    | some x =>
      obtain ⟨buf, rest⟩ := x
      obtain ⟨_, hb, hr⟩ := takeBytes_some _ _ _ _ h1
      subst hr
      simp only
      rcases Header.decode_spec buf.val with ⟨_, h, hd⟩ | ⟨hlt, _⟩
      · exact ⟨h, by rw [hd]; rfl⟩
      · have := buf.property
        omega
  · intro hlen
    cases h1 : takeBytes Header.binarySize avail with
    | none => rfl
    | some x =>
      obtain ⟨buf, rest⟩ := x
      obtain ⟨hle, _, _⟩ := takeBytes_some _ _ _ _ h1
      omega

/-- C12, as the code has it: the sizes of the fields of `Header` in order are 1, 1, 1,
32, 32, 16, 1 and 4 bytes, which sum to 88, the value of `binary.Size`; the read of
`Handle` returns a header exactly when at least 88 bytes arrive, and consumes exactly
88 of them. -/
theorem Header.wire_size_88 :
    Header.fieldSizes = [1, 1, 1, 32, 32, 16, 1, 4] ∧ Header.fieldSizes.sum = 88 ∧
    Header.binarySize = 88 ∧
    (∀ avail : List Nat, 88 ≤ avail.length →
      ∃ h, Header.read avail = some (h, avail.drop 88)) ∧
    (∀ avail : List Nat, avail.length < 88 → Header.read avail = none) :=
  ⟨rfl, rfl, rfl, fun avail => (Header.read_spec avail).1,
    fun avail => (Header.read_spec avail).2⟩

/-- C12 as stated fails: the field sizes sum to 88, not 74, and a connection that yields
only the first 74 bytes of a header makes the read fail. -/
theorem Header.wire_size_not_74 :
    Header.fieldSizes.sum ≠ 74 ∧ Header.binarySize ≠ 74 ∧
    (exampleWire.take 74).length = 74 ∧ Header.read (exampleWire.take 74) = none := by
  refine ⟨by decide, by decide, rfl, rfl⟩

/-- C15: with `max = 1`, after a reconnect from endpoint `a` the map holds the new peer
1 under `a`; `DropPeer` of the replaced peer 0 then deletes that entry, leaving the map
empty, although the entry held a peer other than the one dropped. -/
theorem Node.DropPeer_removes_replacement :
    (runCalls (World.init exampleNode1)
      [.AddPeer connA 10 inOrder, .AddPeer connA2 11 inOrder]).map
        (fun w => w.node.peers) = .ok [("a", 1)] ∧
    (runCalls (World.init exampleNode1)
      [.AddPeer connA 10 inOrder, .AddPeer connA2 11 inOrder, .DropPeer 0]).map
        (fun w => w.node.peers) = .ok [] :=
  ⟨rfl, rfl⟩

theorem Header.wire_size_88_witness :
    88 ≤ exampleWire.length ∧ Header.read exampleWire = some (exampleHeader, [7, 8]) := by
  obtain ⟨h, hh⟩ := Header.wire_size_88.2.2.2.1 exampleWire (by decide)
  exact ⟨by decide, rfl⟩

theorem Header.Ping_iff_witness :
    examplePing.Ping = true ∧ exampleHeader.Ping = false :=
  ⟨(Header.Ping_iff examplePing).1.mpr (by decide), rfl⟩

theorem NewNode_panics_iff_witness :
    (1 : Int) ≤ 1 ∧ NewNode exampleID exampleKey 1 [] = .ok exampleNode1 ∧
    NewNode exampleID exampleKey 0 [] =
      .error "Node must have a maximum number of peers > 0" := by
  obtain ⟨n, hn, _⟩ := (NewNode_panics_iff exampleID exampleKey 1 []).2 (by decide)
  exact ⟨by decide, rfl, rfl⟩

/-! ## Pings, the empty registry, bounds, and the activity timestamp -/

theorem Handle.iter_ping (reg : DecoderRegistry) (cr : Crypto)
    (uuidString : Bytes 16 → String) (id : Bytes 16) (p : PeerRef)
    (getKey : String → Option PublicKey) (w : World) (it : Iter) (pp : Peer) (hdr : Header)
    (hp : w.heap[p]? = some pp) (hstop : it.stop = false) (hdl : it.deadlineErr = false)
    (hhdr : it.hdr = .ok hdr) (hping : hdr.Ping = true) :
    Handle.iter reg cr uuidString id p getKey w it =
      (w.setLastRecv p pp it.now,
       [.pollStop, .setHeaderDeadline, .readHeader, .setLastRecv it.now, .ping], .next) := by
  unfold Handle.iter
  simp only [hstop, hp, hdl, hhdr, hping, Bool.false_eq_true, if_false, if_true]

theorem Handle.iter_invalid (reg : DecoderRegistry) (cr : Crypto)
    (uuidString : Bytes 16 → String) (id : Bytes 16) (p : PeerRef)
    (getKey : String → Option PublicKey) (w : World) (it : Iter) (pp : Peer) (hdr : Header)
    (hp : w.heap[p]? = some pp) (hstop : it.stop = false) (hdl : it.deadlineErr = false)
    (hhdr : it.hdr = .ok hdr) (hping : hdr.Ping = false)
    (hinv : (hdr.Valid reg).length > 0) :
    Handle.iter reg cr uuidString id p getKey w it =
      (w.setLastRecv p pp it.now,
       [.pollStop, .setHeaderDeadline, .readHeader, .setLastRecv it.now, .ping, .valid],
       .ret) := by
  unfold Handle.iter
  simp only [hstop, hp, hdl, hhdr, hping, hinv, Bool.false_eq_true, if_false, if_true,
    List.cons_append, List.nil_append]

/-- C16: a pass in which a ping header is read ends with `continue` after five events:
the poll, the deadline, the header read, the update of `LastRecv` and the call of
`Ping`; there is no validation, no allocation or read of a body (whatever `Length`
holds), no key lookup, no send, no close and no drop; the world changes only in the
`LastRecv` of the peer; the handler goes on with the next frame as a handler started on
the remaining frames would, and is still running when no frame follows. -/
theorem Handle_ping (reg : DecoderRegistry) (cr : Crypto)
    (uuidString : Bytes 16 → String) (id : Bytes 16) (p : PeerRef)
    (drop : World → PeerRef → Except String World)
    (getKey : String → Option PublicKey) (w w1 : World) (pre rest : List Iter)
    (tr0 : List Event) (it : Iter) (pp : Peer) (hdr : Header)
    (hp : w.heap[p]? = some pp)
    (hpre : Handle.loop reg cr uuidString id p getKey w pre = (w1, tr0, .next))
    (hstop : it.stop = false) (hdl : it.deadlineErr = false)
    (hhdr : it.hdr = .ok hdr) (hping : hdr.Ping = true) :
    ∃ pp1 : Peer, w1.heap[p]? = some pp1 ∧
    Handle.iter reg cr uuidString id p getKey w1 it =
      ({ heap := w1.heap.set p { pp1 with LastRecv := it.now },
         closedConns := w1.closedConns, node := w1.node },
       [.pollStop, .setHeaderDeadline, .readHeader, .setLastRecv it.now, .ping], .next) ∧
    Handle reg cr uuidString id p drop getKey w (pre ++ it :: rest) =
      { world := (Handle reg cr uuidString id p drop getKey
          (w1.setLastRecv p pp1 it.now) rest).world,
        trace := tr0 ++ [.pollStop, .setHeaderDeadline, .readHeader, .setLastRecv it.now,
          .ping] ++
          (Handle reg cr uuidString id p drop getKey (w1.setLastRecv p pp1 it.now) rest).trace,
        status := (Handle reg cr uuidString id p drop getKey
          (w1.setLastRecv p pp1 it.now) rest).status } ∧
    (Handle reg cr uuidString id p drop getKey w (pre ++ [it])).status = .running := by
  obtain ⟨pp1, hp1, _⟩ := Handle.loop_peer reg cr uuidString id p getKey pre w pp hp
  rw [hpre] at hp1
  simp only at hp1
  have hit := Handle.iter_ping reg cr uuidString id p getKey w1 it pp1 hdr hp1 hstop hdl
    hhdr hping
  have hl1 : Handle.loop reg cr uuidString id p getKey w1 [it] =
      (w1.setLastRecv p pp1 it.now,
       [.pollStop, .setHeaderDeadline, .readHeader, .setLastRecv it.now, .ping],
       .next) := by
    simp only [Handle.loop, hit, List.append_nil]
  have hl2 := Handle.loop_append reg cr uuidString id p getKey [it] pre w w1 tr0 hpre
  rw [hl1] at hl2
  simp only at hl2
  refine ⟨pp1, hp1, hit, ?_, ?_⟩
  · have h3 := Handle_after_passes reg cr uuidString id p drop getKey w _ (pre ++ [it])
      rest _ hl2
    simp only [List.append_assoc, List.singleton_append] at h3
    rw [h3]
    simp only [List.append_assoc]
  · unfold Handle
    rw [hl2]

theorem Header.Valid_decoders (h : Header) :
    HeaderError.invalidEncoding h.Encoding ∈ h.Valid decoders ∧
    (h.Valid decoders).length > 0 := by
  have hmem : HeaderError.invalidEncoding h.Encoding ∈ h.Valid decoders := by
    unfold Header.Valid decoders
    simp only [List.contains_nil, Bool.false_eq_true, not_false_eq_true, if_true]
    split_ifs <;> simp
  exact ⟨hmem, List.length_pos_of_mem hmem⟩

/-- With the registry of this source every pass has only events of the first six kinds. -/
theorem Handle.iter_decoders_events (cr : Crypto)
    (uuidString : Bytes 16 → String) (id : Bytes 16) (p : PeerRef)
    (getKey : String → Option PublicKey) (w : World) (it : Iter) (e : Event)
    (he : e ∈ (Handle.iter decoders cr uuidString id p getKey w it).2.1) :
    e ∈ [Event.pollStop, .setHeaderDeadline, .readHeader, .setLastRecv it.now, .ping,
      .valid] := by
  cases hstop : it.stop with
  | true => simp [Handle.iter, hstop] at he; simp [he]
  | false =>
  cases hp : w.heap[p]? with
  | none => simp [Handle.iter, hstop, hp] at he; simp [he]
  | some pp =>
  cases hdl : it.deadlineErr with
  | true =>
    simp only [Handle.iter, hstop, hp, hdl, if_true, Bool.false_eq_true, if_false] at he
    revert he; simp; tauto
  | false =>
  cases hhdr : it.hdr with
  | error err =>
    cases err <;>
      (simp only [Handle.iter, hstop, hp, hdl, hhdr, Bool.false_eq_true, if_false] at he
       revert he; simp; tauto)
  | ok hdr =>
  cases hping : hdr.Ping with
  | true =>
    rw [Handle.iter_ping decoders cr uuidString id p getKey w it pp hdr hp hstop hdl hhdr
      hping] at he
    revert he; simp; tauto
  | false =>
    rw [Handle.iter_invalid decoders cr uuidString id p getKey w it pp hdr hp hstop hdl hhdr
      hping (Header.Valid_decoders hdr).2] at he
    exact he

theorem Handle.cleanup_status (p : PeerRef) (drop : World → PeerRef → Except String World)
    (w : World) (tr : List Event) (st : Status) (hst : st ≠ .running) :
    (Handle.cleanup p drop w tr st).status ≠ .running := by
  unfold Handle.cleanup
  cases Peer.Close w p with
  | error e => simp
  | ok r =>
    obtain ⟨w1, err⟩ := r
    simp only
    cases drop w1 p with
    | error e => simp
    | ok w2 => exact hst

/-- C17: the registry `decoders` of this source is empty, so `Header.Valid` reports the
encoding of every header; a pass in which a header that is no ping is read therefore
ends with `return` right after the validation, and the handler runs its cleanup and
stops; and in no run of the handler is there a body allocation, a body read, a key
lookup, a verification or a send. -/
theorem Handle_decoders_stops_at_validation (cr : Crypto)
    (uuidString : Bytes 16 → String) (id : Bytes 16) (p : PeerRef)
    (drop : World → PeerRef → Except String World)
    (getKey : String → Option PublicKey) (w w1 : World) (pre rest : List Iter)
    (tr0 : List Event) (it : Iter) (pp : Peer) (hdr : Header)
    (hp : w.heap[p]? = some pp)
    (hpre : Handle.loop decoders cr uuidString id p getKey w pre = (w1, tr0, .next))
    (hstop : it.stop = false) (hdl : it.deadlineErr = false)
    (hhdr : it.hdr = .ok hdr) (hping : hdr.Ping = false) :
    (∀ h : Header, HeaderError.invalidEncoding h.Encoding ∈ h.Valid decoders ∧
      1 ≤ (h.Valid decoders).length) ∧
    (∃ pp1 : Peer, w1.heap[p]? = some pp1 ∧
      Handle.iter decoders cr uuidString id p getKey w1 it =
        (w1.setLastRecv p pp1 it.now,
         [.pollStop, .setHeaderDeadline, .readHeader, .setLastRecv it.now, .ping, .valid],
         .ret) ∧
      Handle decoders cr uuidString id p drop getKey w (pre ++ it :: rest) =
        Handle.cleanup p drop (w1.setLastRecv p pp1 it.now)
          (tr0 ++ [.pollStop, .setHeaderDeadline, .readHeader, .setLastRecv it.now, .ping,
            .valid]) .returned) ∧
    (Handle decoders cr uuidString id p drop getKey w (pre ++ it :: rest)).status
      ≠ .running ∧
    (∀ (w0 : World) (iters : List Iter),
      ∀ e ∈ (Handle decoders cr uuidString id p drop getKey w0 iters).trace,
        e ≠ .partialMessage ∧ e ≠ .setBodyDeadline ∧ (∀ n, e ≠ .readBody n) ∧
        (∀ s, e ≠ .getKey s) ∧ (∀ k, e ≠ .verify k) ∧ (∀ m, e ≠ .send m)) := by
  obtain ⟨pp1, hp1, _⟩ := Handle.loop_peer decoders cr uuidString id p getKey pre w pp hp
  rw [hpre] at hp1
  simp only at hp1
  have hit := Handle.iter_invalid decoders cr uuidString id p getKey w1 it pp1 hdr hp1 hstop
    hdl hhdr hping (Header.Valid_decoders hdr).2
  have hH := Handle_after_passes decoders cr uuidString id p drop getKey w w1 pre (it :: rest)
    tr0 hpre
  have hH1 : Handle decoders cr uuidString id p drop getKey w1 (it :: rest) =
      Handle.cleanup p drop (w1.setLastRecv p pp1 it.now)
        [.pollStop, .setHeaderDeadline, .readHeader, .setLastRecv it.now, .ping, .valid]
        .returned := by
    simp only [Handle, Handle.loop, hit]
  have hfinal : Handle decoders cr uuidString id p drop getKey w (pre ++ it :: rest) =
      Handle.cleanup p drop (w1.setLastRecv p pp1 it.now)
        (tr0 ++ [.pollStop, .setHeaderDeadline, .readHeader, .setLastRecv it.now, .ping,
          .valid]) .returned := by
    rw [hH, hH1, Handle.cleanup_append]
  refine ⟨fun h => ⟨(Header.Valid_decoders h).1, (Header.Valid_decoders h).2⟩,
    ⟨pp1, hp1, hit, hfinal⟩, ?_, ?_⟩
  · rw [hfinal]
    exact Handle.cleanup_status _ _ _ _ _ (by simp)
  · intro w0 iters e he
    rcases Handle.trace_mem decoders cr uuidString id p drop getKey w0 iters e he with
      h1 | h1 | h1
    · obtain ⟨it2, _, wa, ha⟩ :=
        Handle.loop_mem decoders cr uuidString id p getKey e iters w0 h1
      have hk := Handle.iter_decoders_events cr uuidString id p getKey wa it2 e ha
      simp only [List.mem_cons, List.mem_singleton, List.mem_nil_iff, or_false] at hk
      rcases hk with hk | hk | hk | hk | hk | hk <;> subst hk <;> simp
    · subst h1; simp
    · subst h1; simp

theorem Message.Verify_ok (cr : Crypto) (m : Message) (key : PublicKey)
    (hbody : (m.RawBody.length : Int) = m.RawHeader.Length) :
    ∃ b, m.Verify cr key = .ok b := by
  unfold Message.Verify
  rw [Message.signedPart_ok m hbody, P256Sig.Get_ok]
  have h20 : makeBytes 20 = .ok (List.replicate 20 0) := makeBytes_ok 20
  rw [h20]
  simp only [bind, Except.bind]
  rw [writeAt_fresh 20 _ (cr.sha1Sum _).property]
  exact ⟨_, rfl⟩

/-- No pass of the loop panics when `p` points to a peer. -/
theorem Handle.iter_no_panic (reg : DecoderRegistry) (cr : Crypto)
    (uuidString : Bytes 16 → String) (id : Bytes 16) (p : PeerRef)
    (getKey : String → Option PublicKey) (w : World) (it : Iter) (pp : Peer)
    (hp : w.heap[p]? = some pp) (e : String) :
    (Handle.iter reg cr uuidString id p getKey w it).2.2 ≠ .panic e := by
  cases hstop : it.stop with
  | true => simp [Handle.iter, hstop]
  | false =>
  cases hdl : it.deadlineErr with
  | true => simp [Handle.iter, hstop, hp, hdl]
  | false =>
  cases hhdr : it.hdr with
  | error err => cases err <;> simp [Handle.iter, hstop, hp, hdl, hhdr]
  | ok hdr =>
  cases hping : hdr.Ping with
  | true => simp [Handle.iter, hstop, hp, hdl, hhdr, hping]
  | false =>
  cases hvalid : hdr.Valid reg with
  | cons e1 es => simp [Handle.iter, hstop, hp, hdl, hhdr, hping, hvalid]
  | nil =>
  have hlen := Header.Valid_nil_length reg hdr hvalid
  cases hbdl : it.bodyDeadlineErr with
  | true =>
    simp [Handle.iter, hstop, hp, hdl, hhdr, hping, hvalid, hbdl,
      PartialMessage_ok hdr (by omega)]
  | false =>
  by_cases hfull : hdr.Length ≤ (it.avail.length : Int)
  · rw [Handle.iter_data reg cr uuidString id p getKey w it pp hdr hp hstop hdl hhdr hping
      hvalid hbdl hfull]
    have htk : (it.avail.take hdr.Length.toNat).length = hdr.Length.toNat := by
      rw [List.length_take]; omega
    cases hk : getKey (uuidString hdr.Sender) with
    | none => simp
    | some key =>
      obtain ⟨b, hb⟩ := Message.Verify_ok cr
        { RawHeader := hdr, RawBody := it.avail.take hdr.Length.toNat } key
        (by simp only [htk]; omega)
      simp only [hb]
      cases b with
      | false => simp
      | true => by_cases hid : id = hdr.Sender <;> simp [hid]
  · have hrf : readFull it.avail (List.replicate hdr.Length.toNat 0) = none := by
      have : it.avail.length < hdr.Length.toNat := by omega
      simp only [readFull, List.length_replicate, this, if_true]
    simp [Handle.iter, hstop, hp, hdl, hhdr, hping, hvalid, hbdl,
      PartialMessage_ok hdr (by omega), hrf]

/-- C18: for a header without violation, `Length` is at least 1 and `PartialMessage`
returns a message whose body buffer has exactly `Length` bytes; for every body of that
length the buffer that `Verify` fills has `21 + Length` bytes and `Verify` returns a
boolean, that is, none of its allocations and bounds-checked writes panics; and a pass
of the loop of `Handle` on an allocated peer never ends in a panic. -/
theorem PartialMessage_Verify_in_bounds (reg : DecoderRegistry) (hdr : Header)
    (hvalid : hdr.Valid reg = []) :
    1 ≤ hdr.Length ∧
    (∃ body : List Nat, PartialMessage hdr = .ok { RawHeader := hdr, RawBody := body } ∧
      (body.length : Int) = hdr.Length) ∧
    (∀ body : List Nat, (body.length : Int) = hdr.Length →
      (∃ buf : List Nat,
        Message.signedPart { RawHeader := hdr, RawBody := body } = .ok buf ∧
        (buf.length : Int) = 21 + hdr.Length) ∧
      ∀ (cr : Crypto) (key : PublicKey),
        ∃ b, Message.Verify cr { RawHeader := hdr, RawBody := body } key = .ok b) ∧
    (∀ (cr : Crypto) (uuidString : Bytes 16 → String) (id : Bytes 16) (p : PeerRef)
      (getKey : String → Option PublicKey) (w : World) (it : Iter) (pp : Peer),
      w.heap[p]? = some pp → it.hdr = .ok hdr →
      ∀ e, (Handle.iter reg cr uuidString id p getKey w it).2.2 ≠ .panic e) := by
  have hlen := Header.Valid_nil_length reg hdr hvalid
  refine ⟨hlen, ⟨_, PartialMessage_ok hdr (by omega), ?_⟩, ?_, ?_⟩
  · simp only [List.length_replicate]; omega
  · intro body hbody
    refine ⟨⟨_, Message.signedPart_ok { RawHeader := hdr, RawBody := body } hbody, ?_⟩, ?_⟩
    · simp only [List.length_append, List.length_cons, List.length_nil,
        List.length_singleton, hdr.Sender.property]
      rw [← hbody]; push_cast; ring
    · intro cr key
      exact Message.Verify_ok cr { RawHeader := hdr, RawBody := body } key hbody
  · intro cr uuidString id p getKey w it pp hp _ e
    exact Handle.iter_no_panic reg cr uuidString id p getKey w it pp hp e

/-- What the code does fix about the signed bytes: two messages whose bodies have their
`Length` and whose signed buffers are equal have the same sender, the same encoding
byte, the same length and the same body. -/
theorem Message.signedPart_injective (m1 m2 : Message)
    (h1 : (m1.RawBody.length : Int) = m1.RawHeader.Length)
    (h2 : (m2.RawBody.length : Int) = m2.RawHeader.Length)
    (h : m1.signedPart = m2.signedPart) :
    m1.RawHeader.Sender = m2.RawHeader.Sender ∧
    m1.RawHeader.Encoding % 256 = m2.RawHeader.Encoding % 256 ∧
    m1.RawHeader.Length = m2.RawHeader.Length ∧ m1.RawBody = m2.RawBody := by
  rw [Message.signedPart_ok m1 h1, Message.signedPart_ok m2 h2] at h
  have h := Except.ok.inj h
  simp only [List.append_assoc] at h
  have hs := List.append_inj h
    (by rw [m1.RawHeader.Sender.property, m2.RawHeader.Sender.property])
  have he := List.append_inj hs.2 (by simp)
  have hl := List.append_inj he.2 (by simp)
  have hbody : m1.RawBody = m2.RawBody := hl.2
  refine ⟨Subtype.ext hs.1, ?_, ?_, hbody⟩
  · have h3 : (m1.RawHeader.Encoding % 256).toNat = (m2.RawHeader.Encoding % 256).toNat := by
      simpa using he.1
    omega
  · rw [← h1, ← h2, hbody]

/-- C19: in a pass on an allocated peer, whenever the header read succeeds the peer's
`LastRecv` is set to the clock reading, and that assignment comes right after the read
and before the calls of `Ping` and `Valid`, whether the header is a ping, a data frame
or a header that fails validation; when the stop signal is set, the deadline cannot be
set, or the read times out or fails, the world is unchanged and `LastRecv` is not
assigned. The value assigned is the field that the scan of `AddPeer` compares. -/
theorem Handle.iter_LastRecv (reg : DecoderRegistry) (cr : Crypto)
    (uuidString : Bytes 16 → String) (id : Bytes 16) (p : PeerRef)
    (getKey : String → Option PublicKey) (w : World) (it : Iter) (pp : Peer)
    (hp : w.heap[p]? = some pp) :
    (∀ hdr : Header, it.stop = false → it.deadlineErr = false → it.hdr = .ok hdr →
      (Handle.iter reg cr uuidString id p getKey w it).1 = w.setLastRecv p pp it.now ∧
      (Handle.iter reg cr uuidString id p getKey w it).1.heap[p]? =
        some { pp with LastRecv := it.now } ∧
      ∃ tail : List Event, (Handle.iter reg cr uuidString id p getKey w it).2.1 =
        [.pollStop, .setHeaderDeadline, .readHeader, .setLastRecv it.now, .ping] ++ tail ∧
        ∀ t, Event.setLastRecv t ∉ tail) ∧
    ((it.stop = true ∨ it.deadlineErr = true ∨ ∃ err, it.hdr = .error err) →
      (Handle.iter reg cr uuidString id p getKey w it).1 = w ∧
      ∀ t, Event.setLastRecv t ∉ (Handle.iter reg cr uuidString id p getKey w it).2.1) := by
  have h2 := World.setLastRecv_get w p pp it.now hp
  constructor
  · intro hdr hstop hdl hhdr
    unfold Handle.iter
    simp only [hstop, hp, hdl, hhdr, Bool.false_eq_true, if_false]
    (repeat' split) <;> exact ⟨rfl, h2, _, rfl, by simp⟩
  · intro h
    cases hstop : it.stop with
    | true => simp [Handle.iter, hstop]
    | false =>
    cases hdl : it.deadlineErr with
    | true => simp [Handle.iter, hstop, hp, hdl]
    | false =>
    cases hhdr : it.hdr with
    | error err => cases err <;> simp [Handle.iter, hstop, hp, hdl, hhdr]
    | ok hdr =>
      rcases h with h | h | ⟨err, h⟩
      · rw [hstop] at h; exact Bool.noConfusion h
      · rw [hdl] at h; exact Bool.noConfusion h
      · rw [hhdr] at h; exact Except.noConfusion h

/-! ## The later theorems at concrete inputs -/

theorem Handle_ping_witness :
    (Handle [0] exampleCrypto exampleUUIDString exampleID 0 Node.DropPeer
      (fun _ => some exampleKey.pub) exampleFresh ([] ++ [examplePingIter])).status
        = .running :=
  (Handle_ping [0] exampleCrypto exampleUUIDString exampleID 0 Node.DropPeer
    (fun _ => some exampleKey.pub) exampleFresh exampleFresh [] [] [] examplePingIter
    (newPeer connA 0) examplePing rfl rfl rfl rfl rfl rfl).choose_spec.2.2.2

theorem Handle_decoders_stops_at_validation_witness :
    (Handle decoders exampleCrypto exampleUUIDString exampleID 0 Node.DropPeer
      (fun _ => some exampleKey.pub) exampleFresh ([] ++ exampleIter :: [])).status
        ≠ .running :=
  (Handle_decoders_stops_at_validation exampleCrypto exampleUUIDString exampleID 0
    Node.DropPeer (fun _ => some exampleKey.pub) exampleFresh exampleFresh [] [] []
    exampleIter (newPeer connA 0) exampleHeader rfl rfl rfl rfl rfl rfl).2.2.1

theorem PartialMessage_Verify_in_bounds_witness :
    exampleHeader.Valid [0] = [] ∧ (1 : Int) ≤ exampleHeader.Length ∧
    ∃ b, Message.Verify exampleCrypto exampleMessage exampleKey.pub = .ok b := by
  have h := PartialMessage_Verify_in_bounds [0] exampleHeader (by decide)
  exact ⟨by decide, h.1, (h.2.2.1 [7, 8] (by decide)).2 exampleCrypto exampleKey.pub⟩

theorem Handle.iter_LastRecv_witness :
    (Handle.iter decoders exampleCrypto exampleUUIDString exampleID 1
        (fun _ => none) exampleFull exampleIter).1.heap[1]? =
      some { newPeer connB 5 with LastRecv := 20 } ∧
    (Node.AddPeer inOrder exampleFull connC 25).map (fun r => r.1.node.peers) =
      .ok [("a", 0), ("c", 2)] ∧
    (Node.AddPeer inOrder
        (Handle.iter decoders exampleCrypto exampleUUIDString exampleID 1
          (fun _ => none) exampleFull exampleIter).1 connC 25).map
        (fun r => r.1.node.peers) = .ok [("b", 1), ("c", 2)] :=
  ⟨((Handle.iter_LastRecv decoders exampleCrypto exampleUUIDString exampleID 1
      (fun _ => none) exampleFull exampleIter (newPeer connB 5) rfl).1
      exampleHeader rfl rfl rfl).2.1, rfl, rfl⟩

/-! ## The cleanup after the writer closed the peer -/

/-- C9: the world `exampleWriterClosed` is what the first `Peer.Close`, the one the
writer goroutine defers, leaves of `exampleFresh`. On it, the frame `exampleIter` from a
sender whose key makes `Verify` return false ends the loop without a send, but the
cleanup does not close the peer and then call `drop`: `p.Close()` panics on the closed
queue, the trace ends with the close and has no drop event, and the peer is still in
the map with the counter at 1. -/
theorem Handle_verify_failure_cleanup_panics :
    (Peer.Close exampleFresh 0).map Prod.fst = .ok exampleWriterClosed ∧
    Message.Verify exampleCrypto exampleMessage { X := 5, Y := 5 } = .ok false ∧
    (Handle [0] exampleCrypto exampleUUIDString exampleID 0 Node.DropPeer
      (fun _ => some { X := 5, Y := 5 }) exampleWriterClosed [exampleIter]).status =
        .panicked "close of closed channel" ∧
    (Handle [0] exampleCrypto exampleUUIDString exampleID 0 Node.DropPeer
      (fun _ => some { X := 5, Y := 5 }) exampleWriterClosed [exampleIter]).trace =
        [.pollStop, .setHeaderDeadline, .readHeader, .setLastRecv 20, .ping, .valid,
         .partialMessage, .setBodyDeadline, .readBody 2, .getKey "other",
         .verify { X := 5, Y := 5 }, .close] ∧
    (Handle [0] exampleCrypto exampleUUIDString exampleID 0 Node.DropPeer
      (fun _ => some { X := 5, Y := 5 }) exampleWriterClosed [exampleIter]).trace.count
        .drop = 0 ∧
    (Handle [0] exampleCrypto exampleUUIDString exampleID 0 Node.DropPeer
      (fun _ => some { X := 5, Y := 5 }) exampleWriterClosed [exampleIter]).world.node.peers
        = [("a", 0)] ∧
    (Handle [0] exampleCrypto exampleUUIDString exampleID 0 Node.DropPeer
      (fun _ => some { X := 5, Y := 5 }) exampleWriterClosed [exampleIter]).world.node.wg
        = 1 :=
  ⟨rfl, rfl, rfl, rfl, rfl, rfl, rfl⟩

end Gophernet
